import Mathlib

/-!
Shallow embedding of the quote-distribution pipeline of the BSE_Exchange
repository (services/compression_service.py, services/monitoring_service.py,
services/batch_data_fetcher.py, services/websocket_manager.py,
services/optimized_websocket_service.py, services/cache_integration_service.py).

Python dictionaries with string keys are modelled as ordered association
lists; Python values occurring in quote field-maps (strings, ints, floats,
None) are modelled by `Val`, with floats idealized as rationals and
`round` as round-half-to-even.  The file is laid out as definitions first
(the embedding), then theorems (the verification).
-/

namespace BSE

/-- A Python dict with string keys, as an ordered association list. -/
abbrev AList (α : Type) := List (String × α)

variable {α : Type}

/-- `m[k]` as an option (first entry with key `k`). -/
def aget? (m : AList α) (k : String) : Option α :=
  (m.find? (fun p => p.1 == k)).map (·.2)

/-- `k in m`. -/
def ahasKey (m : AList α) (k : String) : Bool :=
  (m.find? (fun p => p.1 == k)).isSome

/-- Python `m[k] = v`: update in place if the key exists, else append.
When duplicate keys are present every matching entry is rewritten, which
keeps lookups consistent without a well-formedness side condition. -/
def aset (m : AList α) (k : String) (v : α) : AList α :=
  if ahasKey m k then m.map (fun p => if p.1 == k then (k, v) else p)
  else m ++ [(k, v)]

/-- Python `del m[k]` / key-filtering erase. -/
def aerase (m : AList α) (k : String) : AList α :=
  m.filter (fun p => !(p.1 == k))

def akeys (m : AList α) : List String := m.map (·.1)

/-- A Python value as it occurs in a quote field-map: a string, a number
(with a flag recording whether it is a float, since the codec branches on
`isinstance(value, float)`), or `None`. -/
inductive Val where
  | vStr (s : String)
  | vNum (q : ℚ) (isFloat : Bool)
  | vNull
deriving DecidableEq, Repr

/-- Python `==` on values: numbers compare by numeric value regardless of
int/float type, strings by content, `None` only equals `None`. -/
def Val.pyEq : Val → Val → Bool
  | .vStr a, .vStr b => a == b
  | .vNum a _, .vNum b _ => a == b
  | .vNull, .vNull => true
  | _, _ => false

/-- A quote field-map. -/
abbrev Dict := AList Val

/-- Python `d.get(k)`: `None` when the key is absent. -/
def pyGet (d : Dict) (k : String) : Val :=
  (aget? d k).getD .vNull

/-- Python `==` on optional map entries: both absent counts as equal,
present and absent never equal, two present values compare with `pyEq`. -/
def optPyEq : Option Val → Option Val → Bool
  | some a, some b => a.pyEq b
  | none, none => true
  | _, _ => false

/-- Python `==` on dicts: extensional equality of lookups. -/
def dictPyEq (d₁ d₂ : Dict) : Bool :=
  (akeys d₁ ++ akeys d₂).all (fun k => optPyEq (aget? d₁ k) (aget? d₂ k))

/-! ### services/compression_service.py — CompressionService -/

namespace CompressionService

/-- Field-alias table of `_optimize_data_structure`. -/
def field_mapping : List (String × String) :=
  [("symbol", "s"), ("company_name", "cn"), ("current_price", "cp"),
   ("change", "c"), ("percent_change", "pc"), ("volume", "v"),
   ("timestamp", "t"), ("bid_price", "bp"), ("ask_price", "ap"),
   ("high", "h"), ("low", "l")]

/-- Reverse alias table of `_restore_data_structure`. -/
def reverse_mapping : List (String × String) :=
  [("s", "symbol"), ("cn", "company_name"), ("cp", "current_price"),
   ("c", "change"), ("pc", "percent_change"), ("v", "volume"),
   ("t", "timestamp"), ("bp", "bid_price"), ("ap", "ask_price"),
   ("h", "high"), ("l", "low")]

/-- `mapping.get(key, key)`. -/
def lookupKey (m : List (String × String)) (k : String) : String :=
  ((m.find? (fun p => p.1 == k)).map (·.2)).getD k

/-- Python `round(x, _)` integer part, idealized over ℚ: round half to even. -/
def roundHalfEven (x : ℚ) : ℤ :=
  let n := ⌊x⌋
  if x - n < 1/2 then n
  else if 1/2 < x - n then n + 1
  else if n % 2 = 0 then n else n + 1

/-- Python `round(x, nd)` over ℚ. -/
def pyRound (nd : ℕ) (x : ℚ) : ℚ :=
  (roundHalfEven (x * (10 ^ nd : ℚ)) : ℚ) / (10 ^ nd : ℚ)

/-- The float fields rounded to 2 decimals by `_optimize_data_structure`. -/
def twoDecimalFields : List String :=
  ["current_price", "change", "bid_price", "ask_price", "high", "low"]

/-- Per-field float rounding of `_optimize_data_structure`. -/
def optimizeNum (key : String) (q : ℚ) : ℚ :=
  if key ∈ twoDecimalFields then pyRound 2 q
  else if key = "percent_change" then pyRound 3 q
  else q

/-- One iteration of the loop in `_optimize_data_structure`: floats are
rounded per field, non-`None` values stored under the short key, `None`
values dropped. -/
def optimizeStep (acc : Dict) (kv : String × Val) : Dict :=
  let short_key := lookupKey field_mapping kv.1
  match kv.2 with
  | .vNum q true => aset acc short_key (.vNum (optimizeNum kv.1 q) true)
  | .vNull => acc
  | v => aset acc short_key v

def _optimize_data_structure (d : Dict) : Dict :=
  d.foldl optimizeStep []

/-- One iteration of the loop in `_restore_data_structure`: every entry is
stored back under the original (long) key. -/
def restoreStep (acc : Dict) (kv : String × Val) : Dict :=
  aset acc (lookupKey reverse_mapping kv.1) kv.2

def _restore_data_structure (d : Dict) : Dict :=
  d.foldl restoreStep []

/-- The standard quote fields (domain of the alias table). -/
def longFields : List String := field_mapping.map (·.1)

/-- A field-map entry on which `_optimize_data_structure` is lossless:
a standard field, not `None`, and (for floats) already at the codec's
rounding precision. -/
def entryOK : String × Val → Bool
  | (k, v) =>
    (decide (k ∈ longFields)) &&
      (match v with
       | .vNum q true => optimizeNum k q == q
       | .vNull => false
       | _ => true)

/-- The per-symbol delta-baseline cache `previous_data_cache`. -/
abbrev PrevCache := AList Dict

/-- An update returned by `create_delta_update` / `create_full_update`. -/
inductive Update where
  | delta (symbol : String) (timestamp : Val) (changes : Dict)
  | heartbeat (symbol : String) (timestamp : Val)
  | full (symbol : String) (timestamp : Val) (data : Dict)
deriving DecidableEq, Repr

/-- One iteration of the comparison loop in `create_delta_update`, acting on
the pair (current `delta['timestamp']`, current `delta['changes']`):
the timestamp field is always carried over, any other field is recorded as
a change when it differs (Python `!=`) from `previous_data.get(key)`. -/
def deltaStep (previous : Dict) (st : Val × Dict) (kv : String × Val) : Val × Dict :=
  if kv.1 = "timestamp" then (kv.2, st.2)
  else if (pyGet previous kv.1).pyEq kv.2 then st
  else (st.1, aset st.2 kv.1 kv.2)

/-- `create_delta_update(symbol, new_data)`, with the baseline cache passed
explicitly and `datetime.now().isoformat()` abstracted as `now`. Returns the
update and the new cache (the new data is always cached). -/
def create_delta_update (cache : PrevCache) (symbol : String) (Q : Dict)
    (now : String) : Update × PrevCache :=
  let previous := (aget? cache symbol).getD []
  let ts0 : Val := (aget? Q "timestamp").getD (.vStr now)
  let r := Q.foldl (deltaStep previous) (ts0, [])
  let cache' := aset cache symbol Q
  if r.2 ≠ [] then (.delta symbol r.1 r.2, cache')
  else (.heartbeat symbol ((aget? Q "timestamp").getD (.vStr now)), cache')

/-- `create_full_update(symbol, data)`: a full update carrying the whole
field-map; the baseline cache entry for the symbol is reset to the data. -/
def create_full_update (cache : PrevCache) (symbol : String) (Q : Dict)
    (now : String) : Update × PrevCache :=
  (.full symbol ((aget? Q "timestamp").getD (.vStr now)) Q, aset cache symbol Q)

/-- The fields of the new data that `create_delta_update` records as
changed: non-timestamp keys of `Q` whose value differs (Python `!=`) from
`previous_data.get(key)` on the baseline `B`. -/
def changedAt (B Q : Dict) (k : String) : Bool :=
  (k != "timestamp") &&
    (match aget? Q k with
     | some v => !(pyGet B k).pyEq v
     | none => false)

end CompressionService

/-! ### services/monitoring_service.py — CircuitBreaker -/

namespace MonitoringService

/-- The three circuit states `"closed"` / `"open"` / `"half-open"`.
(`opened` stands for the string `"open"`, a Lean keyword.) -/
inductive CBState where
  | closed
  | opened
  | halfOpen
deriving DecidableEq, Repr

/-- The `CircuitBreaker` object.  Wall-clock instants are rationals, so
`(datetime.now() - t).total_seconds() >= recovery_timeout` becomes
`now - t ≥ recovery_timeout`. -/
structure CircuitBreaker where
  failure_threshold : ℕ
  recovery_timeout : ℚ
  failure_count : ℕ
  last_failure_time : Option ℚ
  state : CBState
deriving DecidableEq, Repr

/-- `CircuitBreaker.__init__`. -/
def CircuitBreaker.init (failure_threshold : ℕ) (recovery_timeout : ℚ) :
    CircuitBreaker :=
  ⟨failure_threshold, recovery_timeout, 0, none, .closed⟩

/-- `_should_attempt_reset`. -/
def _should_attempt_reset (cb : CircuitBreaker) (now : ℚ) : Bool :=
  match cb.last_failure_time with
  | none => true
  | some t => decide (now - t ≥ cb.recovery_timeout)

/-- `_on_success`: half-open resets to closed; the failure count is always
cleared. -/
def _on_success (cb : CircuitBreaker) : CircuitBreaker :=
  if cb.state = .halfOpen then { cb with state := .closed, failure_count := 0 }
  else { cb with failure_count := 0 }

/-- `_on_failure`: increment the count, stamp the failure time, and open
the circuit once the count reaches the threshold. -/
def _on_failure (cb : CircuitBreaker) (now : ℚ) : CircuitBreaker :=
  if cb.failure_count + 1 ≥ cb.failure_threshold then
    { cb with failure_count := cb.failure_count + 1,
              last_failure_time := some now, state := .opened }
  else
    { cb with failure_count := cb.failure_count + 1,
              last_failure_time := some now }

/-- Outcome of one `call()`: whether the wrapped operation was invoked,
what the caller observes (`rejected` models the "Circuit breaker is open"
exception, `err` the re-raised operation failure), and the breaker
afterwards. -/
inductive CallResult where
  | rejected
  | ok
  | err
deriving DecidableEq, Repr

structure CallOut where
  invoked : Bool
  result : CallResult
  next : CircuitBreaker
deriving DecidableEq, Repr

/-- The body of `call()` after the open-state gate: run the operation and
do the success/failure bookkeeping. -/
def CircuitBreaker.exec (cb : CircuitBreaker) (now : ℚ) (opSucceeds : Bool) :
    CallOut :=
  if opSucceeds then ⟨true, .ok, _on_success cb⟩
  else ⟨true, .err, _on_failure cb now⟩

/-- `call(func, ...)` with the wrapped operation's outcome abstracted as
`opSucceeds`. -/
def CircuitBreaker.call (cb : CircuitBreaker) (now : ℚ) (opSucceeds : Bool) :
    CallOut :=
  if cb.state = .opened then
    if _should_attempt_reset cb now then
      CircuitBreaker.exec { cb with state := .halfOpen } now opSucceeds
    else ⟨false, .rejected, cb⟩
  else CircuitBreaker.exec cb now opSucceeds

/-- A sequence of calls whose wrapped operation fails every time, at the
given instants. -/
def runFailures (cb : CircuitBreaker) : List ℚ → CircuitBreaker
  | [] => cb
  | t :: ts => runFailures (cb.call t false).next ts

/-- Whether every call of `runFailures` actually invoked the operation. -/
def allInvoked (cb : CircuitBreaker) : List ℚ → Bool
  | [] => true
  | t :: ts => (cb.call t false).invoked && allInvoked (cb.call t false).next ts

end MonitoringService

/-! ### services/batch_data_fetcher.py — BatchDataFetcher -/

namespace BatchDataFetcher

/-- Outcome of one attempt of `_fetch_single_quote` for a symbol: a quote
(its payload abstracted to a string), no data (the method returns `None`),
or an exception propagating into the retry loop's `except` branch.
(`_fetch_single_quote` itself catches its exceptions and returns `None`;
the `exn` case keeps the loop's handler faithful.) -/
inductive FetchOutcome where
  | ok (quote : String)
  | noData
  | exn (msg : String)
deriving DecidableEq, Repr

/-- The upstream environment: the outcome of attempt `i` (0-based) for a
symbol. -/
abbrev FetchEnv := String → ℕ → FetchOutcome

/-- An update callback: receives the successful-quote map and either
returns or raises. -/
abbrev Callback := AList String → Except String Unit

/-- The mutable fetcher fields used by `fetch_batch_quotes` and its legacy
circuit breaker. -/
structure FetcherState where
  max_batch_size : ℕ
  max_retries : ℕ
  circuit_breaker_failures : ℕ
  circuit_breaker_threshold : ℕ
  circuit_breaker_reset_time : Option ℚ
  circuit_breaker_timeout : ℚ
deriving DecidableEq, Repr

/-- `_is_circuit_breaker_open`, including its mutation of the reset-time
bookkeeping. -/
def _is_circuit_breaker_open (st : FetcherState) (now : ℚ) :
    Bool × FetcherState :=
  if st.circuit_breaker_failures < st.circuit_breaker_threshold then (false, st)
  else
    match st.circuit_breaker_reset_time with
    | none =>
      (true,
       { st with
         circuit_breaker_reset_time := some (now + st.circuit_breaker_timeout) })
    | some rt =>
      if now ≥ rt then
        (false, { st with circuit_breaker_failures := 0,
                          circuit_breaker_reset_time := none })
      else (true, st)

/-- `BatchResult` (fetch timestamp and duration omitted). -/
structure BatchResult where
  successful_quotes : AList String
  failed_symbols : AList String
deriving DecidableEq, Repr

def circuitOpenMsg : String := "Circuit breaker is open, skipping batch fetch"

def noDataMsg : String := "No data returned from API"

def unknownErrMsg : String := "Unknown error"

/-- Result of the retry loop for one symbol: the quote on success, the
last error, and the attempt indices actually tried. -/
structure TryOut where
  quote : Option String
  lastErr : Option String
  attempts : List ℕ
deriving DecidableEq, Repr

/-- The retry loop of `fetch_batch_quotes` for one symbol: `n` attempts
remaining, current attempt index, last error so far; stops at the first
successful attempt.  (Backoff sleeps have no observable effect here.) -/
def tryFetch (env : FetchEnv) (sym : String) :
    ℕ → ℕ → Option String → TryOut
  | 0, _, lastErr => ⟨none, lastErr, []⟩
  | n + 1, attempt, lastErr =>
    match env sym attempt with
    | .ok q => ⟨some q, lastErr, [attempt]⟩
    | .noData =>
      let r := tryFetch env sym n (attempt + 1) (some noDataMsg)
      ⟨r.quote, r.lastErr, attempt :: r.attempts⟩
    | .exn e =>
      let r := tryFetch env sym n (attempt + 1) (some e)
      ⟨r.quote, r.lastErr, attempt :: r.attempts⟩

/-- One iteration of the per-symbol loop of `fetch_batch_quotes`,
accumulating the batch result, the circuit-breaker failure count, and the
trace of fetch attempts. -/
def symbolStep (env : FetchEnv) (max_retries : ℕ)
    (acc : BatchResult × ℕ × List (String × ℕ)) (sym : String) :
    BatchResult × ℕ × List (String × ℕ) :=
  let r := tryFetch env sym (max_retries + 1) 0 none
  match r.quote with
  | some q =>
    ({ acc.1 with successful_quotes := aset acc.1.successful_quotes sym q },
     acc.2.1, acc.2.2 ++ r.attempts.map (fun i => (sym, i)))
  | none =>
    ({ acc.1 with
       failed_symbols := aset acc.1.failed_symbols sym (r.lastErr.getD unknownErrMsg) },
     acc.2.1 + 1, acc.2.2 ++ r.attempts.map (fun i => (sym, i)))

/-- The callback fan-out at the end of `fetch_batch_quotes`: every
callback is applied to the full successful-quote map inside `try/except`,
so a raising callback is logged and the loop continues.  Returns the trace
of (callback index, argument) invocations. -/
def runCallbacks (callbacks : List Callback) (sq : AList String) :
    List (ℕ × AList String) :=
  callbacks.enum.map (fun p =>
    match p.2 sq with
    | .ok _ => (p.1, sq)
    | .error _ => (p.1, sq))

/-- Observable outcome of `fetch_batch_quotes`: the returned
`BatchResult`, the fetcher state afterwards, the trace of fetch attempts,
and the trace of callback invocations. -/
structure FetchOut where
  result : BatchResult
  state : FetcherState
  attempts : List (String × ℕ)
  callbackCalls : List (ℕ × AList String)
deriving Repr

/-- The per-symbol loop and callback fan-out of `fetch_batch_quotes`
(after the circuit-breaker gate and batch-size truncation). Callbacks run
only when both the successful-quote map and the callback list are
nonempty. -/
def fetchLoop (st : FetcherState) (callbacks : List Callback)
    (env : FetchEnv) (symbols : List String) : FetchOut :=
  let r := symbols.foldl (symbolStep env st.max_retries)
    (⟨[], []⟩, st.circuit_breaker_failures, [])
  { result := r.1,
    state := { st with circuit_breaker_failures := r.2.1 },
    attempts := r.2.2,
    callbackCalls :=
      if r.1.successful_quotes.isEmpty || callbacks.isEmpty then []
      else runCallbacks callbacks r.1.successful_quotes }

/-- `fetch_batch_quotes(symbols)`: if the legacy circuit breaker reports
open, return immediately with every input symbol failed (no truncation,
no fetch attempt, no callback); otherwise truncate to `max_batch_size`
and run the per-symbol loop. -/
def fetch_batch_quotes (st : FetcherState) (callbacks : List Callback)
    (env : FetchEnv) (symbols : List String) (now : ℚ) : FetchOut :=
  if (_is_circuit_breaker_open st now).1 then
    { result := ⟨[], symbols.map (fun s => (s, circuitOpenMsg))⟩,
      state := (_is_circuit_breaker_open st now).2,
      attempts := [], callbackCalls := [] }
  else
    fetchLoop (_is_circuit_breaker_open st now).2 callbacks env
      (if symbols.length > st.max_batch_size then symbols.take st.max_batch_size
       else symbols)

end BatchDataFetcher

/-! ### services/websocket_manager.py — WebSocketManager -/

namespace WebSocketManager

/-- A Python `set` of strings (membership is all that matters). -/
abbrev SetL := List String

/-- `s.add(x)` / set insertion. -/
def sinsert (s : SetL) (x : String) : SetL :=
  if x ∈ s then s else x :: s

/-- `s.discard(x)`. -/
def sdiscard (s : SetL) (x : String) : SetL :=
  s.filter (fun y => !(y == x))

/-- The registry state of the manager: `connected_clients`,
`client_subscriptions` (client → symbol set) and `symbol_subscribers`
(symbol → client set). -/
structure WSState where
  connected_clients : SetL
  client_subscriptions : AList SetL
  symbol_subscribers : AList SetL
deriving DecidableEq, Repr

/-- `self.client_subscriptions` after the defaulting step
`if client_id not in ...: ... = set()` of `handle_client_subscription`. -/
def subs0 (st : WSState) (c : String) : AList SetL :=
  if ahasKey st.client_subscriptions c then st.client_subscriptions
  else aset st.client_subscriptions c []

/-- The client's current symbol set at the start of
`handle_client_subscription`. -/
def curSubs (st : WSState) (c : String) : SetL :=
  (aget? (subs0 st c) c).getD []

/-- `new_symbols = set(symbols) - self.client_subscriptions[client_id]`. -/
def newSymbols (st : WSState) (c : String) (symbols : List String) : List String :=
  symbols.filter (fun s => !(curSubs st c).contains s)

/-- One iteration of the reverse-map loop of `handle_client_subscription`:
create the symbol's subscriber set when missing and add the client. -/
def subRevStep (c : String) (rv : AList SetL) (s : String) : AList SetL :=
  aset rv s (sinsert ((aget? rv s).getD []) c)

/-- `handle_client_subscription(client_id, symbols)` (the early return for
a disconnected client is written as the inverted guard). -/
def handle_client_subscription (st : WSState) (c : String)
    (symbols : List String) : WSState :=
  if c ∈ st.connected_clients then
    ⟨st.connected_clients,
     aset (subs0 st c) c (symbols.foldl sinsert (curSubs st c)),
     (newSymbols st c symbols).foldl (subRevStep c) st.symbol_subscribers⟩
  else st

/-- The shared subscriber-pruning step of
`_unsubscribe_client_from_symbols` and `_cleanup_client`: discard the
client from the symbol's subscriber set and delete the entry when it
becomes empty. -/
def pruneRevStep (c : String) (rv : AList SetL) (s : String) : AList SetL :=
  if ahasKey rv s then
    if (sdiscard ((aget? rv s).getD []) c).isEmpty then aerase rv s
    else aset rv s (sdiscard ((aget? rv s).getD []) c)
  else rv

/-- One iteration of `_unsubscribe_client_from_symbols`: discard the
symbol from the client's set and prune the reverse map. -/
def unsubStep (c : String) (st : WSState) (s : String) : WSState :=
  ⟨st.connected_clients,
   aset st.client_subscriptions c
     (sdiscard ((aget? st.client_subscriptions c).getD []) s),
   pruneRevStep c st.symbol_subscribers s⟩

/-- `_unsubscribe_client_from_symbols(client_id, symbols)`. -/
def _unsubscribe_client_from_symbols (st : WSState) (c : String)
    (symbols : List String) : WSState :=
  if ahasKey st.client_subscriptions c then symbols.foldl (unsubStep c) st
  else st

/-- `_cleanup_client(client_id)`. -/
def _cleanup_client (st : WSState) (c : String) : WSState :=
  if ahasKey st.client_subscriptions c then
    ⟨sdiscard st.connected_clients c,
     aerase st.client_subscriptions c,
     ((aget? st.client_subscriptions c).getD []).foldl
       (pruneRevStep c) st.symbol_subscribers⟩
  else
    ⟨sdiscard st.connected_clients c,
     st.client_subscriptions, st.symbol_subscribers⟩

/-- An operation of the registry interleaving of C6. -/
inductive WSOp where
  | subscribe (c : String) (symbols : List String)
  | unsubscribe (c : String) (symbols : List String)
  | disconnect (c : String)
deriving DecidableEq, Repr

def applyOp (st : WSState) : WSOp → WSState
  | .subscribe c symbols => handle_client_subscription st c symbols
  | .unsubscribe c symbols => _unsubscribe_client_from_symbols st c symbols
  | .disconnect c => _cleanup_client st c

def applyOps (st : WSState) (ops : List WSOp) : WSState :=
  ops.foldl applyOp st

/-- The bidirectional registry invariant: a symbol is in a client's
subscription set iff the client is in the symbol's subscriber set, and no
symbol entry with an empty subscriber set remains. -/
def SubsInv (st : WSState) : Prop :=
  (∀ c s : String,
    s ∈ (aget? st.client_subscriptions c).getD [] ↔
      c ∈ (aget? st.symbol_subscribers s).getD []) ∧
  (∀ p ∈ st.symbol_subscribers, p.2 ≠ [])

/-- Executable check implying `SubsInv` (used to discharge the invariant
hypothesis on concrete states). -/
def checkSubsInv (st : WSState) : Bool :=
  (st.client_subscriptions.all (fun p =>
    p.2.all (fun s =>
      decide (p.1 ∈ (aget? st.symbol_subscribers s).getD [])))) &&
  (st.symbol_subscribers.all (fun p =>
    (!p.2.isEmpty) &&
    p.2.all (fun c =>
      decide (p.1 ∈ (aget? st.client_subscriptions c).getD []))))

end WebSocketManager

/-! ### services/optimized_websocket_service.py — OptimizedWebSocketService -/

namespace OptimizedWebSocketService

open CompressionService

/-- Capabilities negotiated per client (the `client_capabilities`
entries); `max_message_size` and `preferred_compression` play no role in
`_send_update_to_client` and are omitted. -/
structure Caps where
  supports_compression : Bool
  supports_delta_updates : Bool
  supports_batch_updates : Bool
deriving DecidableEq, Repr

/-- `client_capabilities.get(client_id, {})` with the `.get(..., False)`
defaults of `_send_update_to_client`. -/
def capsFor (caps : AList Caps) (c : String) : Caps :=
  (aget? caps c).getD ⟨false, false, false⟩

/-- The service state read and written by `_send_update_to_client`: the
compression service's delta-baseline cache, the negotiated capabilities,
and the per-client pending batches. -/
structure OWSState where
  prev_cache : PrevCache
  client_capabilities : AList Caps
  pending_batches : AList (List Update)
deriving Repr

/-- A message emitted towards one client: a single optimized update
(`_send_single_update`) or a flushed batch (`_flush_batch`). -/
inductive OutMsg where
  | single (u : Update)
  | batch (us : List Update)
deriving DecidableEq, Repr

/-- `_add_to_batch(client_id, update_data)`: append the update to the
client's pending batch and flush it as one batch message once it reaches
`max_batch_size`. -/
def _add_to_batch (max_batch_size : ℕ) (pending : AList (List Update))
    (c : String) (u : Update) : AList (List Update) × List OutMsg :=
  let q := (aget? pending c).getD [] ++ [u]
  if q.length ≥ max_batch_size then (aset pending c [], [.batch q])
  else (aset pending c q, [])

/-- `_send_update_to_client(client_id, symbol, stock_data,
force_full_update)`: the encoding is chosen from the client's declared
delta support (and the force flag) alone, then the update is enqueued when
the client supports batching and sent immediately otherwise. -/
def _send_update_to_client (max_batch_size : ℕ) (st : OWSState)
    (c symbol : String) (Q : Dict) (force_full_update : Bool) (now : String) :
    OWSState × List OutMsg :=
  let caps := capsFor st.client_capabilities c
  let enc :=
    if caps.supports_delta_updates && !force_full_update then
      create_delta_update st.prev_cache symbol Q now
    else
      create_full_update st.prev_cache symbol Q now
  if caps.supports_batch_updates then
    let r := _add_to_batch max_batch_size st.pending_batches c enc.1
    (⟨enc.2, st.client_capabilities, r.1⟩, r.2)
  else
    (⟨enc.2, st.client_capabilities, st.pending_batches⟩, [.single enc.1])

/-- How `_send_update_to_client` delivers an encoded update `u`: sent
immediately as a single message when the client does not support batch
updates; appended to the client's pending batch (and flushed as one batch
message at `max_batch_size`) when it does. -/
def DeliveredAs (max_batch_size : ℕ) (st : OWSState) (c symbol : String)
    (Q : Dict) (force : Bool) (now : String) (u : Update) : Prop :=
  ((capsFor st.client_capabilities c).supports_batch_updates = false →
    (_send_update_to_client max_batch_size st c symbol Q force now).2 = [.single u] ∧
    (_send_update_to_client max_batch_size st c symbol Q force now).1.pending_batches
      = st.pending_batches) ∧
  ((capsFor st.client_capabilities c).supports_batch_updates = true →
    (((aget? st.pending_batches c).getD [] ++ [u]).length ≥ max_batch_size →
      (_send_update_to_client max_batch_size st c symbol Q force now).2
        = [.batch ((aget? st.pending_batches c).getD [] ++ [u])] ∧
      aget? (_send_update_to_client max_batch_size st c symbol Q force now).1.pending_batches c
        = some []) ∧
    (((aget? st.pending_batches c).getD [] ++ [u]).length < max_batch_size →
      (_send_update_to_client max_batch_size st c symbol Q force now).2 = [] ∧
      aget? (_send_update_to_client max_batch_size st c symbol Q force now).1.pending_batches c
        = some ((aget? st.pending_batches c).getD [] ++ [u])))

end OptimizedWebSocketService

/-! ### services/cache_integration_service.py — CacheIntegrationService -/

namespace CacheIntegrationService

/-- `get_stock_data(symbol, fetch_if_missing)`.

`cached` is the result of `cache_manager.get_stock_data(symbol)`; the
single-symbol fetch goes through the real `fetch_batch_quotes` model.

Modelled from the spec: the cache store adapter (`cache/redis_manager.py`
is not among the pipeline sources).  `refresh_stock_data` "writes to the
cache store with a TTL and publishes a change notification"; per the
failure semantics, "a cache-store failure on write must not abort the
fetch result — the caller still receives fresh data; only the
cache-consistency side effect is lost", so a failed write is reported as
the flag `refreshOk = false` rather than raised.  The code ignores that
flag: the fresh quote is returned either way. -/
def get_stock_data (cached : Option String) (fetch_if_missing : Bool)
    (st : BatchDataFetcher.FetcherState)
    (callbacks : List BatchDataFetcher.Callback)
    (env : BatchDataFetcher.FetchEnv) (symbol : String) (now : ℚ)
    (refreshOk : Bool) : Option String :=
  match cached with
  | some q => some q
  | none =>
    if fetch_if_missing then
      match aget? (BatchDataFetcher.fetch_batch_quotes st callbacks env
          [symbol] now).result.successful_quotes symbol with
      | some q =>
        let _ := refreshOk
        some q
      | none => none
    else none

end CacheIntegrationService

/-! ## Theorems -/

@[simp] theorem aget?_nil (k : String) : aget? ([] : AList α) k = none := rfl

theorem aget?_cons (p : String × α) (m : AList α) (k : String) :
    aget? (p :: m) k = if p.1 = k then some p.2 else aget? m k := by
  unfold aget?
  by_cases h : p.1 = k
  · rw [List.find?_cons_of_pos _ (by simp [h])]
    simp [h]
  · rw [List.find?_cons_of_neg _ (by simp [h])]
    simp [h]

@[simp] theorem ahasKey_nil (k : String) : ahasKey ([] : AList α) k = false := rfl

theorem ahasKey_cons (p : String × α) (m : AList α) (k : String) :
    ahasKey (p :: m) k = (p.1 == k || ahasKey m k) := by
  unfold ahasKey
  by_cases h : p.1 = k
  · rw [List.find?_cons_of_pos _ (by simp [h])]
    simp [h]
  · rw [List.find?_cons_of_neg _ (by simp [h])]
    simp [h]

theorem ahasKey_iff_mem_akeys (m : AList α) (k : String) :
    ahasKey m k = true ↔ k ∈ akeys m := by
  induction m with
  | nil => simp [akeys]
  | cons p m ih =>
    rw [ahasKey_cons]
    simp only [akeys, List.map_cons, List.mem_cons]
    rw [Bool.or_eq_true, beq_iff_eq]
    constructor
    · rintro (h | h)
      · exact Or.inl h.symm
      · exact Or.inr (ih.mp h)
    · rintro (h | h)
      · exact Or.inl h.symm
      · exact Or.inr (ih.mpr h)

theorem aget?_isSome_iff_ahasKey (m : AList α) (k : String) :
    (aget? m k).isSome = ahasKey m k := by
  simp [aget?, ahasKey]

theorem aget?_eq_none_of_not_ahasKey (m : AList α) (k : String)
    (h : ahasKey m k = false) : aget? m k = none := by
  have := aget?_isSome_iff_ahasKey m k
  rw [h] at this
  exact Option.not_isSome_iff_eq_none.mp (by simp [this])

theorem aget?_append (m₁ m₂ : AList α) (k : String) :
    aget? (m₁ ++ m₂) k = if ahasKey m₁ k then aget? m₁ k else aget? m₂ k := by
  induction m₁ with
  | nil => simp
  | cons p m ih =>
    rw [List.cons_append, aget?_cons, aget?_cons, ahasKey_cons]
    by_cases h : p.1 = k <;> simp [h, ih]

/-- Setting a fresh key appends the pair. -/
theorem aset_of_not_ahasKey (m : AList α) (k : String) (v : α)
    (h : ahasKey m k = false) : aset m k v = m ++ [(k, v)] := by
  simp [aset, h]

theorem ahasKey_append (m₁ m₂ : AList α) (k : String) :
    ahasKey (m₁ ++ m₂) k = (ahasKey m₁ k || ahasKey m₂ k) := by
  induction m₁ with
  | nil => simp
  | cons p m ih =>
    rw [List.cons_append, ahasKey_cons, ahasKey_cons, ih, Bool.or_assoc]

theorem aget?_map_update_self (m : AList α) (k : String) (v : α)
    (h : ahasKey m k = true) :
    aget? (m.map (fun p => if p.1 == k then (k, v) else p)) k = some v := by
  induction m with
  | nil => simp [ahasKey] at h
  | cons p m ih =>
    rw [ahasKey_cons, Bool.or_eq_true, beq_iff_eq] at h
    by_cases hp : p.1 = k
    · simp only [List.map_cons, hp, beq_self_eq_true, if_true]
      rw [aget?_cons]
      simp
    · simp only [List.map_cons]
      rw [show ((if p.1 == k then (k, v) else p) : String × α) = p by simp [hp]]
      rw [aget?_cons]
      simp only [hp, if_false]
      exact ih (h.resolve_left hp)

theorem aget?_map_update_ne (m : AList α) (k k' : String) (v : α) (h : k ≠ k') :
    aget? (m.map (fun p => if p.1 == k then (k, v) else p)) k' = aget? m k' := by
  induction m with
  | nil => simp
  | cons p m ih =>
    simp only [List.map_cons]
    by_cases hp : p.1 = k
    · rw [show ((if p.1 == k then (k, v) else p) : String × α) = (k, v) by simp [hp]]
      rw [aget?_cons, aget?_cons]
      simp only [hp, h, if_false]
      exact ih
    · rw [show ((if p.1 == k then (k, v) else p) : String × α) = p by simp [hp]]
      rw [aget?_cons, aget?_cons]
      by_cases hp' : p.1 = k'
      · simp [hp']
      · simp only [hp', if_false]
        exact ih

theorem aget?_aset_self (m : AList α) (k : String) (v : α) :
    aget? (aset m k v) k = some v := by
  unfold aset
  by_cases h : ahasKey m k = true
  · simpa [h] using aget?_map_update_self m k v h
  · simp only [h, Bool.false_eq_true, if_false]
    rw [aget?_append]
    have h0 : ahasKey m k = false := by simpa using h
    simp [aget?_eq_none_of_not_ahasKey m k h0, h0, aget?_cons]

theorem aget?_aset_ne (m : AList α) (k k' : String) (v : α) (h : k ≠ k') :
    aget? (aset m k v) k' = aget? m k' := by
  unfold aset
  by_cases hk : ahasKey m k = true
  · simpa [hk] using aget?_map_update_ne m k k' v h
  · simp only [hk, Bool.false_eq_true, if_false]
    rw [aget?_append]
    by_cases hd : ahasKey m k' = true
    · simp [hd]
    · have h0 : ahasKey m k' = false := by simpa using hd
      simp [h0, aget?_eq_none_of_not_ahasKey m k' h0, aget?_cons, h]

theorem ahasKey_aset_ne (m : AList α) (k k' : String) (v : α) (h : k ≠ k') :
    ahasKey (aset m k v) k' = ahasKey m k' := by
  rw [← aget?_isSome_iff_ahasKey, ← aget?_isSome_iff_ahasKey, aget?_aset_ne m k k' v h]

theorem aget?_aerase_self (m : AList α) (k : String) :
    aget? (aerase m k) k = none := by
  induction m with
  | nil => simp [aerase]
  | cons p m ih =>
    unfold aerase at *
    by_cases hp : p.1 = k
    · rw [List.filter_cons_of_neg (by simp [hp])]
      exact ih
    · rw [List.filter_cons_of_pos (by simp [hp])]
      rw [aget?_cons]
      simp only [hp, if_false]
      exact ih

theorem aget?_aerase_ne (m : AList α) (k k' : String) (h : k ≠ k') :
    aget? (aerase m k) k' = aget? m k' := by
  induction m with
  | nil => simp [aerase]
  | cons p m ih =>
    unfold aerase at *
    by_cases hp : p.1 = k
    · rw [List.filter_cons_of_neg (by simp [hp])]
      rw [aget?_cons]
      have : ¬ p.1 = k' := by rw [hp]; exact h
      simp only [this, if_false]
      exact ih
    · rw [List.filter_cons_of_pos (by simp [hp])]
      rw [aget?_cons, aget?_cons]
      by_cases hp' : p.1 = k'
      · simp [hp']
      · simp only [hp', if_false]
        exact ih

/-- A nonempty association list has a successful lookup (its head key). -/
theorem exists_aget?_isSome_of_ne_nil (m : AList α) (h : m ≠ []) :
    ∃ k, (aget? m k).isSome := by
  match m, h with
  | p :: m, _ =>
    refine ⟨p.1, ?_⟩
    rw [aget?_cons]
    simp

theorem Val.pyEq_refl (v : Val) : v.pyEq v = true := by
  cases v <;> simp [Val.pyEq]

theorem Val.pyEq_symm (v w : Val) : v.pyEq w = w.pyEq v := by
  cases v <;> cases w <;> simp only [Val.pyEq] <;>
    first
    | rfl
    | (rw [Bool.eq_iff_iff, beq_iff_eq, beq_iff_eq]; exact eq_comm)

namespace CompressionService

theorem optimizeStep_entryOK (acc : Dict) (kv : String × Val)
    (h : entryOK kv = true) :
    optimizeStep acc kv = aset acc (lookupKey field_mapping kv.1) kv.2 := by
  obtain ⟨k, v⟩ := kv
  unfold entryOK at h
  rw [Bool.and_eq_true] at h
  match v, h with
  | .vStr s, _ => rfl
  | .vNum q false, _ => rfl
  | .vNum q true, ⟨_, hq⟩ =>
    simp only [beq_iff_eq] at hq
    simp [optimizeStep, hq]

/-- The generic append-characterization of a fold that `aset`s each entry
under a transformed key, when all transformed keys are fresh. -/
theorem foldl_aset_eq_append (f : String → String) (g : String × Val → Val)
    (l : List (String × Val)) :
    ∀ acc : Dict,
      (∀ p ∈ l, ahasKey acc (f p.1) = false) →
      (l.map (fun p => f p.1)).Nodup →
      l.foldl (fun acc kv => aset acc (f kv.1) (g kv)) acc
        = acc ++ l.map (fun p => (f p.1, g p)) := by
  induction l with
  | nil => intro acc _ _; simp
  | cons p l ih =>
    intro acc hfresh hnd
    simp only [List.map_cons, List.nodup_cons] at hnd
    have hstep : aset acc (f p.1) (g p) = acc ++ [(f p.1, g p)] :=
      aset_of_not_ahasKey _ _ _ (hfresh p (List.mem_cons_self p l))
    simp only [List.foldl_cons, hstep]
    rw [ih (acc ++ [(f p.1, g p)]) ?_ hnd.2]
    · simp
    · intro q hq
      rw [ahasKey_append, Bool.or_eq_false_iff]
      refine ⟨hfresh q (List.mem_cons_of_mem p hq), ?_⟩
      have hne : f q.1 ≠ f p.1 := by
        intro hcontra
        exact hnd.1 (by rw [← hcontra]; exact List.mem_map_of_mem _ hq)
      rw [ahasKey_cons]
      simp [hne.symm]

theorem optimize_eq_map (Q : Dict)
    (hok : ∀ p ∈ Q, entryOK p = true)
    (hnd : (Q.map (fun p => lookupKey field_mapping p.1)).Nodup) :
    _optimize_data_structure Q
      = Q.map (fun p => (lookupKey field_mapping p.1, p.2)) := by
  unfold _optimize_data_structure
  have hcongr : Q.foldl optimizeStep []
      = Q.foldl (fun acc kv => aset acc (lookupKey field_mapping kv.1) kv.2) [] := by
    have aux : ∀ (l : List (String × Val)), (∀ p ∈ l, entryOK p = true) →
        ∀ acc : Dict, l.foldl optimizeStep acc
          = l.foldl (fun acc kv => aset acc (lookupKey field_mapping kv.1) kv.2) acc := by
      intro l hl
      induction l with
      | nil => intro acc; rfl
      | cons p l ih =>
        intro acc
        simp only [List.foldl_cons]
        rw [optimizeStep_entryOK acc p (hl p (List.mem_cons_self p l))]
        exact ih (fun q hq => hl q (List.mem_cons_of_mem p hq)) _
    exact aux Q hok []
  rw [hcongr]
  simpa using foldl_aset_eq_append (lookupKey field_mapping) (fun kv => kv.2) Q []
    (by intro p _; simp) hnd

theorem restore_eq_map (D : Dict)
    (hnd : (D.map (fun p => lookupKey reverse_mapping p.1)).Nodup) :
    _restore_data_structure D
      = D.map (fun p => (lookupKey reverse_mapping p.1, p.2)) := by
  unfold _restore_data_structure
  have : D.foldl restoreStep []
      = D.foldl (fun acc kv => aset acc (lookupKey reverse_mapping kv.1) kv.2) [] := rfl
  rw [this]
  simpa using foldl_aset_eq_append (lookupKey reverse_mapping) (fun kv => kv.2) D []
    (by intro p _; simp) hnd

/-- The alias table is injective on the standard fields. -/
theorem lookupKey_field_mapping_injOn :
    ∀ a ∈ longFields, ∀ b ∈ longFields,
      lookupKey field_mapping a = lookupKey field_mapping b → a = b := by
  decide

/-- Restoring a shortened standard field name gives back the original. -/
theorem lookupKey_roundtrip :
    ∀ a ∈ longFields, lookupKey reverse_mapping (lookupKey field_mapping a) = a := by
  decide

/-- C1 (amended): the optimize/restore round trip is the identity on quote
field-maps whose keys are distinct standard fields, whose values are not
`None`, and whose float values are already at the codec's rounding
precision. -/
theorem optimize_restore_roundtrip (Q : Dict)
    (hnd : (akeys Q).Nodup)
    (hok : ∀ p ∈ Q, entryOK p = true) :
    _restore_data_structure (_optimize_data_structure Q) = Q := by
  have hkeysMem : ∀ p ∈ Q, p.1 ∈ longFields := by
    intro p hp
    have := hok p hp
    unfold entryOK at this
    rw [Bool.and_eq_true] at this
    exact of_decide_eq_true this.1
  have hshort_nd : (Q.map (fun p => lookupKey field_mapping p.1)).Nodup := by
    have : Q.map (fun p => lookupKey field_mapping p.1)
        = (akeys Q).map (lookupKey field_mapping) := by
      simp [akeys, List.map_map]
    rw [this]
    refine List.Nodup.map_on ?_ hnd
    intro x hx y hy hxy
    have hxL : x ∈ longFields := by
      obtain ⟨p, hp, rfl⟩ := List.mem_map.mp hx
      exact hkeysMem p hp
    have hyL : y ∈ longFields := by
      obtain ⟨p, hp, rfl⟩ := List.mem_map.mp hy
      exact hkeysMem p hp
    exact lookupKey_field_mapping_injOn x hxL y hyL hxy
  rw [optimize_eq_map Q hok hshort_nd]
  set D := Q.map (fun p => (lookupKey field_mapping p.1, p.2)) with hD
  have hDmap : D.map (fun p => lookupKey reverse_mapping p.1)
      = Q.map (fun p => p.1) := by
    rw [hD, List.map_map]
    refine List.map_congr_left ?_
    intro p hp
    exact lookupKey_roundtrip p.1 (hkeysMem p hp)
  have hDnd : (D.map (fun p => lookupKey reverse_mapping p.1)).Nodup := by
    rw [hDmap]
    exact hnd
  rw [restore_eq_map D hDnd, hD, List.map_map]
  have : ((fun p : String × Val => (lookupKey reverse_mapping p.1, p.2)) ∘
      fun p : String × Val => (lookupKey field_mapping p.1, p.2)) =
      fun p : String × Val => (lookupKey reverse_mapping (lookupKey field_mapping p.1), p.2) := by
    funext p
    rfl
  rw [this]
  have : Q.map (fun p : String × Val =>
      (lookupKey reverse_mapping (lookupKey field_mapping p.1), p.2)) = Q.map id := by
    refine List.map_congr_left ?_
    intro p hp
    rw [lookupKey_roundtrip p.1 (hkeysMem p hp)]
    exact Prod.mk.eta
  rw [this, List.map_id]

/-- C1: the claim `restore(optimize(Q)) == Q` for every quote field-map is
false: a null-valued optional field (`bid_price` here) is dropped by
`_optimize_data_structure` and never restored, so the round trip does not
reproduce the original map (Python `==` on the dicts is false). -/
theorem optimize_restore_drops_null_field :
    dictPyEq
      (_restore_data_structure (_optimize_data_structure
        [("symbol", .vStr "RELIANCE"), ("bid_price", .vNull)]))
      [("symbol", .vStr "RELIANCE"), ("bid_price", .vNull)] = false := by
  decide

/-- C1 witness: the round-trip theorem applied at a concrete field-map. -/
theorem optimize_restore_roundtrip_witness :
    ((akeys ([("symbol", Val.vStr "RELIANCE"), ("volume", Val.vNum 100 false)] : Dict)).Nodup ∧
      (∀ p ∈ ([("symbol", Val.vStr "RELIANCE"), ("volume", Val.vNum 100 false)] : Dict),
        entryOK p = true)) ∧
    _restore_data_structure (_optimize_data_structure
        [("symbol", Val.vStr "RELIANCE"), ("volume", Val.vNum 100 false)])
      = [("symbol", Val.vStr "RELIANCE"), ("volume", Val.vNum 100 false)] :=
  ⟨⟨by decide, by decide⟩,
   optimize_restore_roundtrip
     [("symbol", Val.vStr "RELIANCE"), ("volume", Val.vNum 100 false)]
     (by decide) (by decide)⟩


theorem changedAt_of_ts (B Q : Dict) : changedAt B Q "timestamp" = false := by
  simp [changedAt]

theorem changedAt_cons_ne (B : Dict) (p : String × Val) (Q : Dict) (k : String)
    (h : p.1 ≠ k) : changedAt B (p :: Q) k = changedAt B Q k := by
  unfold changedAt
  rw [aget?_cons]
  simp [h]

theorem changedAt_of_none (B Q : Dict) (k : String) (h : aget? Q k = none) :
    changedAt B Q k = false := by
  unfold changedAt
  rw [h]
  simp

theorem isSome_of_changedAt (B Q : Dict) (k : String)
    (h : changedAt B Q k = true) : (aget? Q k).isSome := by
  unfold changedAt at h
  rw [Bool.and_eq_true] at h
  cases hq : aget? Q k with
  | none => rw [hq] at h; simp at h
  | some v => simp

theorem changedAt_self (Q : Dict) (k : String) : changedAt Q Q k = false := by
  unfold changedAt
  cases hq : aget? Q k with
  | none => simp
  | some v => simp [pyGet, hq, Val.pyEq_refl]

theorem deltaStep_ts (B : Dict) (st : Val × Dict) (kv : String × Val)
    (h : kv.1 = "timestamp") : deltaStep B st kv = (kv.2, st.2) := by
  unfold deltaStep
  rw [if_pos h]

theorem deltaStep_unchanged (B : Dict) (st : Val × Dict) (kv : String × Val)
    (h1 : kv.1 ≠ "timestamp") (h2 : (pyGet B kv.1).pyEq kv.2 = true) :
    deltaStep B st kv = st := by
  unfold deltaStep
  rw [if_neg h1, if_pos h2]

theorem deltaStep_changed (B : Dict) (st : Val × Dict) (kv : String × Val)
    (h1 : kv.1 ≠ "timestamp") (h2 : (pyGet B kv.1).pyEq kv.2 = false) :
    deltaStep B st kv = (st.1, aset st.2 kv.1 kv.2) := by
  unfold deltaStep
  rw [if_neg h1, if_neg (by rw [h2]; exact Bool.false_ne_true)]

/-- If the timestamp key does not occur, the comparison loop never touches
the timestamp component. -/
theorem deltaFold_fst_of_no_ts (B Q : Dict) (h : ahasKey Q "timestamp" = false) :
    ∀ t0 ch0, (Q.foldl (deltaStep B) (t0, ch0)).1 = t0 := by
  induction Q with
  | nil => intro t0 ch0; rfl
  | cons p Q ih =>
    intro t0 ch0
    rw [ahasKey_cons, Bool.or_eq_false_iff] at h
    have hp : p.1 ≠ "timestamp" := by
      intro hc
      rw [hc] at h
      simp at h
    rw [List.foldl_cons]
    by_cases hpy : (pyGet B p.1).pyEq p.2 = true
    · rw [deltaStep_unchanged B (t0, ch0) p hp hpy]
      exact ih h.2 t0 ch0
    · rw [deltaStep_changed B (t0, ch0) p hp (by simpa using hpy)]
      exact ih h.2 t0 (aset ch0 p.1 p.2)

/-- The timestamp carried by the comparison loop is the new data's
timestamp field when present, the initial value otherwise. -/
theorem deltaFold_fst (B Q : Dict) (hnd : (akeys Q).Nodup) :
    ∀ t0 ch0, (Q.foldl (deltaStep B) (t0, ch0)).1
      = (aget? Q "timestamp").getD t0 := by
  induction Q with
  | nil => intro t0 ch0; rfl
  | cons p Q ih =>
    intro t0 ch0
    simp only [akeys, List.map_cons, List.nodup_cons] at hnd
    rw [aget?_cons, List.foldl_cons]
    by_cases hp : p.1 = "timestamp"
    · rw [deltaStep_ts B (t0, ch0) p hp]
      have hno : ahasKey Q "timestamp" = false := by
        rw [← hp]
        by_cases hq : ahasKey Q p.1 = true
        · exact absurd ((ahasKey_iff_mem_akeys Q p.1).mp hq) (by simpa [akeys] using hnd.1)
        · simpa using hq
      rw [deltaFold_fst_of_no_ts B Q hno p.2 ch0]
      simp [hp]
    · have hrec : ∀ ch0', (Q.foldl (deltaStep B) (t0, ch0')).1
          = (aget? Q "timestamp").getD t0 :=
        fun ch0' => ih (by simpa [akeys] using hnd.2) t0 ch0'
      by_cases hpy : (pyGet B p.1).pyEq p.2 = true
      · rw [deltaStep_unchanged B (t0, ch0) p hp hpy, hrec ch0]
        simp [hp]
      · rw [deltaStep_changed B (t0, ch0) p hp (by simpa using hpy)]
        rw [hrec (aset ch0 p.1 p.2)]
        simp [hp]

/-- Lookup characterization of the changes map built by the comparison
loop: exactly the fields recorded by `changedAt`. -/
theorem deltaFold_changes (B : Dict) (Q : Dict) (hnd : (akeys Q).Nodup) :
    ∀ t0 (ch0 : Dict), (∀ k, ahasKey Q k = true → ahasKey ch0 k = false) →
      ∀ k, aget? ((Q.foldl (deltaStep B) (t0, ch0)).2) k
        = if changedAt B Q k then aget? Q k else aget? ch0 k := by
  induction Q with
  | nil =>
    intro t0 ch0 _ k
    simp [changedAt]
  | cons p Q ih =>
    intro t0 ch0 hdisj k
    simp only [akeys, List.map_cons, List.nodup_cons] at hnd
    have hQp : aget? Q p.1 = none := by
      apply aget?_eq_none_of_not_ahasKey
      by_cases hq : ahasKey Q p.1 = true
      · exact absurd ((ahasKey_iff_mem_akeys Q p.1).mp hq) (by simpa [akeys] using hnd.1)
      · simpa using hq
    have hnd' : (akeys Q).Nodup := by simpa [akeys] using hnd.2
    have hdisj' : ∀ k, ahasKey Q k = true → ahasKey ch0 k = false := by
      intro k hk
      exact hdisj k (by rw [ahasKey_cons, hk]; simp)
    rw [List.foldl_cons]
    by_cases hp : p.1 = "timestamp"
    · rw [deltaStep_ts B (t0, ch0) p hp]
      rw [ih hnd' p.2 ch0 hdisj' k]
      by_cases hk : p.1 = k
      · rw [← hk, changedAt_of_none B Q p.1 hQp]
        have h2 : changedAt B (p :: Q) p.1 = false := by
          rw [hp, changedAt_of_ts]
        rw [h2]
        rfl
      · rw [changedAt_cons_ne B p Q k hk]
        by_cases hc : changedAt B Q k = true
        · rw [hc]
          simp only [if_true]
          rw [aget?_cons]
          simp [hk]
        · rw [Bool.not_eq_true] at hc
          rw [hc]
          rfl
    · by_cases hpy : (pyGet B p.1).pyEq p.2 = true
      · rw [deltaStep_unchanged B (t0, ch0) p hp hpy]
        rw [ih hnd' t0 ch0 hdisj' k]
        by_cases hk : p.1 = k
        · rw [← hk, changedAt_of_none B Q p.1 hQp]
          have h2 : changedAt B (p :: Q) p.1 = false := by
            unfold changedAt
            rw [aget?_cons, if_pos rfl]
            show ((p.1 != "timestamp") && !(pyGet B p.1).pyEq p.2) = false
            rw [hpy]
            simp
          rw [h2]
          rfl
        · rw [changedAt_cons_ne B p Q k hk]
          by_cases hc : changedAt B Q k = true
          · rw [hc]
            simp only [if_true]
            rw [aget?_cons]
            simp [hk]
          · rw [Bool.not_eq_true] at hc
            rw [hc]
            rfl
      · rw [deltaStep_changed B (t0, ch0) p hp (by simpa using hpy)]
        have hdisj'' : ∀ k, ahasKey Q k = true → ahasKey (aset ch0 p.1 p.2) k = false := by
          intro k hk
          have hkp : p.1 ≠ k := by
            intro hc
            rw [hc] at hQp
            rw [← aget?_isSome_iff_ahasKey, hQp] at hk
            simp at hk
          rw [ahasKey_aset_ne ch0 p.1 k p.2 hkp]
          exact hdisj' k hk
        rw [ih hnd' t0 (aset ch0 p.1 p.2) hdisj'' k]
        by_cases hk : p.1 = k
        · rw [← hk, changedAt_of_none B Q p.1 hQp]
          have hch : changedAt B (p :: Q) p.1 = true := by
            unfold changedAt
            rw [aget?_cons, if_pos rfl]
            show ((p.1 != "timestamp") && !(pyGet B p.1).pyEq p.2) = true
            rw [show (pyGet B p.1).pyEq p.2 = false by simpa using hpy]
            simp [hp]
          rw [hch]
          simp only [Bool.false_eq_true, if_false, if_true]
          rw [aget?_aset_self, aget?_cons]
          simp
        · rw [changedAt_cons_ne B p Q k hk, aget?_aset_ne ch0 p.1 k p.2 hk]
          by_cases hc : changedAt B Q k = true
          · rw [hc]
            simp only [if_true]
            rw [aget?_cons]
            simp [hk]
          · rw [Bool.not_eq_true] at hc
            rw [hc]
            rfl

/-- Difference detection agrees with extensional map difference on
non-timestamp keys over equal key sets. -/
theorem changedAt_eq_not_optPyEq (B Q : Dict) (k : String)
    (hk : k ≠ "timestamp") (h : ahasKey Q k = ahasKey B k) :
    changedAt B Q k = !optPyEq (aget? Q k) (aget? B k) := by
  unfold changedAt
  cases hq : aget? Q k with
  | none =>
    have hQ : ahasKey Q k = false := by
      rw [← aget?_isSome_iff_ahasKey, hq]
      rfl
    have hB : aget? B k = none :=
      aget?_eq_none_of_not_ahasKey B k (by rw [← h]; exact hQ)
    rw [hB]
    simp [optPyEq, hk]
  | some v =>
    have hQ : ahasKey Q k = true := by
      rw [← aget?_isSome_iff_ahasKey, hq]
      rfl
    have hB : (aget? B k).isSome := by
      rw [aget?_isSome_iff_ahasKey, ← h]
      exact hQ
    obtain ⟨w, hw⟩ := Option.isSome_iff_exists.mp hB
    rw [hw]
    have hbne : (k != "timestamp") = true := by simpa using hk
    simp only [optPyEq, pyGet, hw, Option.getD_some, hbne, Bool.true_and]
    rw [Val.pyEq_symm]

/-- Unfolded form of `create_delta_update`. -/
theorem create_delta_update_def (cache : PrevCache) (S : String) (Q : Dict)
    (now : String) :
    create_delta_update cache S Q now =
      (if (Q.foldl (deltaStep ((aget? cache S).getD []))
            ((aget? Q "timestamp").getD (.vStr now), [])).2 ≠ [] then
        (Update.delta S
          (Q.foldl (deltaStep ((aget? cache S).getD []))
            ((aget? Q "timestamp").getD (.vStr now), [])).1
          (Q.foldl (deltaStep ((aget? cache S).getD []))
            ((aget? Q "timestamp").getD (.vStr now), [])).2,
         aset cache S Q)
      else
        (Update.heartbeat S ((aget? Q "timestamp").getD (.vStr now)),
         aset cache S Q)) := rfl

/-- The cache side of `create_delta_update`: the baseline is always reset
to the new data. -/
theorem create_delta_update_snd (cache : PrevCache) (S : String) (Q : Dict)
    (now : String) :
    (create_delta_update cache S Q now).2 = aset cache S Q := by
  rw [create_delta_update_def]
  split <;> rfl

/-- C2 (amended): for a cached baseline `B` and new data `Q` over the same
non-timestamp key set, `create_delta_update` stores `Q` as the new
baseline, returns a heartbeat carrying `Q`'s timestamp when `Q` equals `B`
on every non-timestamp field, and otherwise returns a delta carrying `Q`'s
timestamp whose changes map contains exactly the non-timestamp fields on
which `Q` and `B` differ.  (The original claim fails for field-maps whose
key sets differ: fields present in `B` but absent from `Q` are never
compared, see the counterexample.) -/
theorem create_delta_update_spec (cache : PrevCache) (S : String) (B Q : Dict)
    (now : String)
    (hB : aget? cache S = some B)
    (hnd : (akeys Q).Nodup)
    (hkeys : ∀ k, k ≠ "timestamp" → ahasKey Q k = ahasKey B k) :
    aget? (create_delta_update cache S Q now).2 S = some Q ∧
    ((∀ k, k ≠ "timestamp" → optPyEq (aget? Q k) (aget? B k) = true) →
      (create_delta_update cache S Q now).1
        = .heartbeat S ((aget? Q "timestamp").getD (.vStr now))) ∧
    (∀ k₀, k₀ ≠ "timestamp" → optPyEq (aget? Q k₀) (aget? B k₀) = false →
      ∃ ch : Dict,
        (create_delta_update cache S Q now).1
          = .delta S ((aget? Q "timestamp").getD (.vStr now)) ch ∧
        aget? ch "timestamp" = none ∧
        (∀ k, k ≠ "timestamp" →
          aget? ch k = if optPyEq (aget? Q k) (aget? B k) then none else aget? Q k)) := by
  have hprev : ((aget? cache S).getD []) = B := by rw [hB]; rfl
  have hchanges : ∀ k,
      aget? ((Q.foldl (deltaStep B)
        ((aget? Q "timestamp").getD (.vStr now), [])).2) k
        = if changedAt B Q k then aget? Q k else none := by
    intro k
    rw [deltaFold_changes B Q hnd ((aget? Q "timestamp").getD (.vStr now)) []
      (fun k _ => rfl) k]
    rfl
  refine ⟨?_, ?_, ?_⟩
  · rw [create_delta_update_snd]
    exact aget?_aset_self cache S Q
  · intro hall
    have hnone : ∀ k, aget? ((Q.foldl (deltaStep B)
        ((aget? Q "timestamp").getD (.vStr now), [])).2) k = none := by
      intro k
      rw [hchanges k]
      by_cases hk : k = "timestamp"
      · rw [hk, changedAt_of_ts]
        rfl
      · rw [changedAt_eq_not_optPyEq B Q k hk (hkeys k hk), hall k hk]
        rfl
    have hempty : (Q.foldl (deltaStep B)
        ((aget? Q "timestamp").getD (.vStr now), [])).2 = [] := by
      by_contra hne
      obtain ⟨k, hk⟩ := exists_aget?_isSome_of_ne_nil _ hne
      rw [hnone k] at hk
      simp at hk
    rw [create_delta_update_def, hprev, if_neg (by rw [hempty]; simp)]
  · intro k₀ hk₀ hdiff
    have hchg : changedAt B Q k₀ = true := by
      rw [changedAt_eq_not_optPyEq B Q k₀ hk₀ (hkeys k₀ hk₀), hdiff]
      rfl
    have hsome : (aget? Q k₀).isSome := isSome_of_changedAt B Q k₀ hchg
    have hnempty : (Q.foldl (deltaStep B)
        ((aget? Q "timestamp").getD (.vStr now), [])).2 ≠ [] := by
      intro hc
      have h1 := hchanges k₀
      rw [hc] at h1
      simp only [aget?_nil, hchg, if_true] at h1
      rw [← h1] at hsome
      simp at hsome
    refine ⟨(Q.foldl (deltaStep B)
        ((aget? Q "timestamp").getD (.vStr now), [])).2, ?_, ?_, ?_⟩
    · rw [create_delta_update_def, hprev, if_pos hnempty]
      rw [deltaFold_fst B Q hnd]
      cases h : aget? Q "timestamp" <;> simp [h]
    · rw [hchanges "timestamp", changedAt_of_ts]
      rfl
    · intro k hk
      rw [hchanges k, changedAt_eq_not_optPyEq B Q k hk (hkeys k hk)]
      cases h : optPyEq (aget? Q k) (aget? B k) <;> simp

/-- C2 counterexample: with baseline `{current_price: "99.0"}` cached for
symbol `A` and new data `{timestamp: "t1"}`, the two field-maps differ on
the non-timestamp field `current_price`, yet `create_delta_update` returns
a heartbeat rather than a delta recording that difference — fields absent
from the new data are never compared against the baseline. -/
theorem create_delta_update_misses_removed_field :
    optPyEq (aget? ([("timestamp", Val.vStr "t1")] : Dict) "current_price")
        (aget? ([("current_price", Val.vStr "99.0")] : Dict) "current_price") = false ∧
    (create_delta_update [("A", [("current_price", Val.vStr "99.0")])] "A"
        [("timestamp", Val.vStr "t1")] "n").1
      = .heartbeat "A" (.vStr "t1") := by
  decide

/-- C2 witness: the amended theorem applied at a concrete baseline and
new-data pair differing on `current_price`. -/
theorem create_delta_update_spec_witness :
    aget? ([("A", [("current_price", Val.vStr "100")])] : PrevCache) "A"
        = some [("current_price", Val.vStr "100")] ∧
    aget? (create_delta_update [("A", [("current_price", Val.vStr "100")])] "A"
        [("current_price", Val.vStr "101")] "n").2 "A"
      = some [("current_price", Val.vStr "101")] :=
  ⟨by decide,
   (create_delta_update_spec [("A", [("current_price", Val.vStr "100")])] "A"
      [("current_price", Val.vStr "100")] [("current_price", Val.vStr "101")] "n"
      (by decide) (by decide)
      (by
        intro k hk
        by_cases h : "current_price" = k <;>
          simp [ahasKey_cons, h])).1⟩

/-- C3: `create_full_update` resets the per-symbol baseline, so an
immediately following `create_delta_update` with the identical field-map
finds no changed field and yields a heartbeat. -/
theorem full_then_delta_heartbeat (cache : PrevCache) (S : String) (Q : Dict)
    (now now' : String) (hnd : (akeys Q).Nodup) :
    (create_delta_update (create_full_update cache S Q now).2 S Q now').1
      = .heartbeat S ((aget? Q "timestamp").getD (.vStr now')) := by
  have hget : aget? (create_full_update cache S Q now).2 S = some Q :=
    aget?_aset_self cache S Q
  have hprev : ((aget? (create_full_update cache S Q now).2 S).getD []) = Q := by
    rw [hget]
    rfl
  have hnone : ∀ k, aget? ((Q.foldl (deltaStep Q)
      ((aget? Q "timestamp").getD (.vStr now'), [])).2) k = none := by
    intro k
    rw [deltaFold_changes Q Q hnd ((aget? Q "timestamp").getD (.vStr now')) []
      (fun k _ => rfl) k, changedAt_self]
    rfl
  have hempty : (Q.foldl (deltaStep Q)
      ((aget? Q "timestamp").getD (.vStr now'), [])).2 = [] := by
    by_contra hne
    obtain ⟨k, hk⟩ := exists_aget?_isSome_of_ne_nil _ hne
    rw [hnone k] at hk
    simp at hk
  rw [create_delta_update_def, hprev, if_neg (by rw [hempty]; simp)]

/-- C3 witness: the full-then-delta theorem applied at a concrete
field-map. -/
theorem full_then_delta_heartbeat_witness :
    (akeys ([("symbol", Val.vStr "A"), ("timestamp", Val.vStr "t2")] : Dict)).Nodup ∧
    (create_delta_update
        (create_full_update [] "A"
          [("symbol", Val.vStr "A"), ("timestamp", Val.vStr "t2")] "n1").2 "A"
        [("symbol", Val.vStr "A"), ("timestamp", Val.vStr "t2")] "n2").1
      = .heartbeat "A" (.vStr "t2") :=
  ⟨by decide,
   full_then_delta_heartbeat [] "A"
     [("symbol", Val.vStr "A"), ("timestamp", Val.vStr "t2")] "n1" "n2" (by decide)⟩

end CompressionService

namespace MonitoringService

/-- A failing call from a non-open breaker is invoked and does the failure
bookkeeping. -/
theorem call_fail_of_closed (cb : CircuitBreaker) (t : ℚ)
    (h : cb.state = .closed) :
    cb.call t false = ⟨true, .err, _on_failure cb t⟩ := by
  unfold CircuitBreaker.call
  rw [if_neg (by rw [h]; exact fun hc => CBState.noConfusion hc)]
  rfl

/-- Running `n` consecutive failing calls from a closed breaker with
`failure_count + n = failure_threshold` opens the circuit: the final state
is open, the count equals the threshold, the last failure time is the last
call instant, the configuration is unchanged, and every call invoked the
operation. -/
theorem runFailures_opens (T : ℕ) (rt : ℚ) :
    ∀ (ts : List ℚ) (cb : CircuitBreaker) (tlast : ℚ),
      cb.failure_threshold = T → cb.recovery_timeout = rt →
      cb.state = .closed →
      cb.failure_count + ts.length = T → ts.getLast? = some tlast →
      (runFailures cb ts).state = .opened ∧
      (runFailures cb ts).failure_count = T ∧
      (runFailures cb ts).last_failure_time = some tlast ∧
      (runFailures cb ts).failure_threshold = T ∧
      (runFailures cb ts).recovery_timeout = rt ∧
      allInvoked cb ts = true := by
  intro ts
  induction ts with
  | nil =>
    intro cb tlast _ _ _ _ hlast
    simp at hlast
  | cons t ts ih =>
    intro cb tlast hthr hrt hclosed hcount hlast
    have hcall := call_fail_of_closed cb t hclosed
    cases ts with
    | nil =>
      have hT : cb.failure_count + 1 = T := by simpa using hcount
      have hfail : _on_failure cb t =
          { cb with failure_count := cb.failure_count + 1,
                    last_failure_time := some t, state := .opened } := by
        unfold _on_failure
        rw [if_pos (by rw [hthr]; omega)]
      have hlast' : tlast = t := by
        simp [List.getLast?] at hlast
        exact hlast.symm
      unfold runFailures allInvoked
      rw [hcall]
      unfold runFailures allInvoked
      rw [hfail, hlast']
      refine ⟨rfl, by simpa using hT, rfl, by simpa using hthr, by simpa using hrt, rfl⟩
    | cons t2 ts2 =>
      have hlt : cb.failure_count + 1 < T := by
        simp [List.length_cons] at hcount
        omega
      have hfail : _on_failure cb t =
          { cb with failure_count := cb.failure_count + 1,
                    last_failure_time := some t } := by
        unfold _on_failure
        rw [if_neg (by rw [hthr]; omega)]
      have hlast2 : (t2 :: ts2).getLast? = some tlast := by
        rwa [List.getLast?_cons_cons] at hlast
      have hrec := ih { cb with failure_count := cb.failure_count + 1,
                                last_failure_time := some t } tlast
        (by simpa using hthr) (by simpa using hrt) (by simpa using hclosed)
        (by simp [List.length_cons] at hcount ⊢; omega) hlast2
      unfold runFailures allInvoked
      rw [hcall]
      simp only [hfail]
      refine ⟨hrec.1, hrec.2.1, hrec.2.2.1, hrec.2.2.2.1, hrec.2.2.2.2.1, ?_⟩
      simp only [Bool.true_and]
      exact hrec.2.2.2.2.2

/-- C4: starting closed, `failure_threshold` consecutive failing calls
(each of which invokes the wrapped operation) leave the breaker open with
`failure_count = failure_threshold`; while less than `recovery_timeout`
has elapsed since the last failure, `call()` rejects with the circuit-open
error without invoking the operation and without changing the breaker;
once at least `recovery_timeout` has elapsed the next call invokes the
operation (half-open), and a success returns the breaker to closed with
`failure_count = 0`. -/
theorem circuit_breaker_lifecycle (T : ℕ) (rt : ℚ) (ts : List ℚ) (tlast : ℚ)
    (hT : 1 ≤ T) (hlen : ts.length = T) (hlast : ts.getLast? = some tlast) :
    allInvoked (CircuitBreaker.init T rt) ts = true ∧
    (runFailures (CircuitBreaker.init T rt) ts).state = .opened ∧
    (runFailures (CircuitBreaker.init T rt) ts).failure_count = T ∧
    (∀ now b, now - tlast < rt →
      ((runFailures (CircuitBreaker.init T rt) ts).call now b).invoked = false ∧
      ((runFailures (CircuitBreaker.init T rt) ts).call now b).result = .rejected ∧
      ((runFailures (CircuitBreaker.init T rt) ts).call now b).next
        = runFailures (CircuitBreaker.init T rt) ts) ∧
    (∀ now, now - tlast ≥ rt →
      ((runFailures (CircuitBreaker.init T rt) ts).call now true).invoked = true ∧
      ((runFailures (CircuitBreaker.init T rt) ts).call now true).result = .ok ∧
      ((runFailures (CircuitBreaker.init T rt) ts).call now true).next.state = .closed ∧
      ((runFailures (CircuitBreaker.init T rt) ts).call now true).next.failure_count = 0) := by
  have h0 := runFailures_opens T rt ts (CircuitBreaker.init T rt) tlast rfl rfl rfl
    (by simp [CircuitBreaker.init, hlen]) hlast
  obtain ⟨hstate, hcount, htime, hthr, hrt, hinv⟩ := h0
  refine ⟨hinv, hstate, hcount, ?_, ?_⟩
  · intro now b hlt
    have hreset : _should_attempt_reset (runFailures (CircuitBreaker.init T rt) ts) now
        = false := by
      unfold _should_attempt_reset
      rw [htime]
      simp only [decide_eq_false_iff_not, not_le]
      rw [hrt]
      linarith
    unfold CircuitBreaker.call
    rw [if_pos hstate, if_neg (by rw [hreset]; exact Bool.false_ne_true)]
    exact ⟨rfl, rfl, rfl⟩
  · intro now hge
    have hreset : _should_attempt_reset (runFailures (CircuitBreaker.init T rt) ts) now
        = true := by
      unfold _should_attempt_reset
      rw [htime]
      simp only [decide_eq_true_eq]
      rw [hrt]
      linarith
    unfold CircuitBreaker.call
    rw [if_pos hstate, if_pos hreset]
    unfold CircuitBreaker.exec _on_success
    rw [if_pos rfl, if_pos rfl]
    exact ⟨rfl, rfl, rfl, rfl⟩

/-- C4 witness: threshold 2, timeout 60, failures at instants 0 and 1;
the breaker opens, rejects at instant 30, and a success at instant 61
closes it again. -/
theorem circuit_breaker_lifecycle_witness :
    (1 ≤ 2 ∧ ([0, 1] : List ℚ).length = 2 ∧
      ([0, 1] : List ℚ).getLast? = some 1) ∧
    (runFailures (CircuitBreaker.init 2 60) [0, 1]).state = .opened :=
  ⟨⟨by decide, by decide, by decide⟩,
   (circuit_breaker_lifecycle 2 60 [0, 1] 1 (by decide) (by decide) (by decide)).2.1⟩

end MonitoringService

/-- An entry of `aset m k v` is an entry of `m` or carries key `k`. -/
theorem mem_aset (m : AList α) (k : String) (v : α) (p : String × α)
    (h : p ∈ aset m k v) : p ∈ m ∨ p.1 = k := by
  unfold aset at h
  by_cases hk : ahasKey m k = true
  · rw [if_pos hk] at h
    obtain ⟨q, hq, hpq⟩ := List.mem_map.mp h
    by_cases hq1 : q.1 = k
    · right
      rw [← hpq]
      simp [hq1]
    · left
      rw [← hpq]
      simpa [hq1] using hq
  · rw [if_neg hk] at h
    rcases List.mem_append.mp h with h1 | h1
    · exact Or.inl h1
    · right
      rw [List.mem_singleton.mp h1]

namespace BatchDataFetcher

/-- Every symbol in the result maps, and every attempted symbol, of the
per-symbol loop comes from the initial accumulator or the processed
list. -/
theorem symbolStep_fold_mem (env : FetchEnv) (n : ℕ) :
    ∀ (l : List String) (acc : BatchResult × ℕ × List (String × ℕ)),
      (∀ p ∈ (l.foldl (symbolStep env n) acc).1.successful_quotes,
        p ∈ acc.1.successful_quotes ∨ p.1 ∈ l) ∧
      (∀ p ∈ (l.foldl (symbolStep env n) acc).1.failed_symbols,
        p ∈ acc.1.failed_symbols ∨ p.1 ∈ l) ∧
      (∀ p ∈ (l.foldl (symbolStep env n) acc).2.2,
        p ∈ acc.2.2 ∨ p.1 ∈ l) := by
  intro l
  induction l with
  | nil =>
    intro acc
    exact ⟨fun p hp => Or.inl hp, fun p hp => Or.inl hp, fun p hp => Or.inl hp⟩
  | cons s l ih =>
    intro acc
    rw [List.foldl_cons]
    have hstep :
        ((symbolStep env n acc s).1.successful_quotes = acc.1.successful_quotes ∨
          (symbolStep env n acc s).1.successful_quotes
            = aset acc.1.successful_quotes s
                ((tryFetch env s (n + 1) 0 none).quote.getD "")) ∧
        ((symbolStep env n acc s).1.failed_symbols = acc.1.failed_symbols ∨
          (symbolStep env n acc s).1.failed_symbols
            = aset acc.1.failed_symbols s
                ((tryFetch env s (n + 1) 0 none).lastErr.getD unknownErrMsg)) ∧
        (symbolStep env n acc s).2.2
          = acc.2.2 ++ (tryFetch env s (n + 1) 0 none).attempts.map (fun i => (s, i)) := by
      unfold symbolStep
      cases hq : (tryFetch env s (n + 1) 0 none).quote with
      | some q => simp [hq]
      | none => simp [hq]
    obtain ⟨hsq, hfl, hat⟩ := hstep
    refine ⟨?_, ?_, ?_⟩
    · intro p hp
      rcases (ih (symbolStep env n acc s)).1 p hp with h1 | h1
      · rcases hsq with h2 | h2
        · rw [h2] at h1
          exact Or.inl h1
        · rw [h2] at h1
          rcases mem_aset _ _ _ p h1 with h3 | h3
          · exact Or.inl h3
          · exact Or.inr (by rw [h3]; exact List.mem_cons_self s l)
      · exact Or.inr (List.mem_cons_of_mem s h1)
    · intro p hp
      rcases (ih (symbolStep env n acc s)).2.1 p hp with h1 | h1
      · rcases hfl with h2 | h2
        · rw [h2] at h1
          exact Or.inl h1
        · rw [h2] at h1
          rcases mem_aset _ _ _ p h1 with h3 | h3
          · exact Or.inl h3
          · exact Or.inr (by rw [h3]; exact List.mem_cons_self s l)
      · exact Or.inr (List.mem_cons_of_mem s h1)
    · intro p hp
      rcases (ih (symbolStep env n acc s)).2.2 p hp with h1 | h1
      · rw [hat] at h1
        rcases List.mem_append.mp h1 with h2 | h2
        · exact Or.inl h2
        · obtain ⟨i, _, hpi⟩ := List.mem_map.mp h2
          exact Or.inr (by rw [← hpi]; exact List.mem_cons_self s l)
      · exact Or.inr (List.mem_cons_of_mem s h1)

/-- C5: with the circuit breaker closed and an input batch longer than
`max_batch_size`, `fetch_batch_quotes` returns normally after processing
only the first `max_batch_size` symbols: every symbol appearing in the
returned result maps or in the fetch-attempt trace is among the first
`max_batch_size` input symbols. -/
theorem fetch_batch_truncates (st : FetcherState) (callbacks : List Callback)
    (env : FetchEnv) (symbols : List String) (now : ℚ)
    (hopen : (_is_circuit_breaker_open st now).1 = false)
    (hover : symbols.length > st.max_batch_size) :
    (∀ p ∈ (fetch_batch_quotes st callbacks env symbols now).result.successful_quotes,
      p.1 ∈ symbols.take st.max_batch_size) ∧
    (∀ p ∈ (fetch_batch_quotes st callbacks env symbols now).result.failed_symbols,
      p.1 ∈ symbols.take st.max_batch_size) ∧
    (∀ p ∈ (fetch_batch_quotes st callbacks env symbols now).attempts,
      p.1 ∈ symbols.take st.max_batch_size) := by
  unfold fetch_batch_quotes
  rw [if_neg (by rw [hopen]; exact Bool.false_ne_true), if_pos hover]
  set st' := (_is_circuit_breaker_open st now).2
  have h := symbolStep_fold_mem env st'.max_retries (symbols.take st.max_batch_size)
    (⟨[], []⟩, st'.circuit_breaker_failures, [])
  unfold fetchLoop
  refine ⟨?_, ?_, ?_⟩
  · intro p hp
    rcases h.1 p hp with h1 | h1
    · simp at h1
    · exact h1
  · intro p hp
    rcases h.2.1 p hp with h1 | h1
    · simp at h1
    · exact h1
  · intro p hp
    rcases h.2.2 p hp with h1 | h1
    · simp at h1
    · exact h1

/-- C5 witness: the truncation theorem applied to a two-symbol batch with
`max_batch_size = 1`. -/
theorem fetch_batch_truncates_witness :
    ((_is_circuit_breaker_open ⟨1, 0, 0, 5, none, 300⟩ 0).1 = false ∧
      (["A", "B"] : List String).length > 1) ∧
    (∀ p ∈ (fetch_batch_quotes ⟨1, 0, 0, 5, none, 300⟩ []
        (fun _ _ => .ok "Q") ["A", "B"] 0).result.successful_quotes,
      p.1 ∈ (["A", "B"] : List String).take 1) :=
  ⟨⟨by decide, by decide⟩,
   (fetch_batch_truncates ⟨1, 0, 0, 5, none, 300⟩ []
      (fun _ _ => .ok "Q") ["A", "B"] 0 (by decide) (by decide)).1⟩

/-- C10: when the legacy circuit breaker reports open,
`fetch_batch_quotes` returns before truncation: no quote is fetched, no
callback runs, `successful_quotes` is empty and `failed_symbols` maps
every input symbol — including those beyond `max_batch_size` — to the
circuit-open message. -/
theorem fetch_batch_circuit_open (st : FetcherState) (callbacks : List Callback)
    (env : FetchEnv) (symbols : List String) (now : ℚ)
    (hopen : (_is_circuit_breaker_open st now).1 = true) :
    fetch_batch_quotes st callbacks env symbols now =
      { result := ⟨[], symbols.map (fun s => (s, circuitOpenMsg))⟩,
        state := (_is_circuit_breaker_open st now).2,
        attempts := [], callbackCalls := [] } := by
  unfold fetch_batch_quotes
  rw [if_pos hopen]

/-- C10 witness: the circuit-open theorem applied to a breaker with
`failures = threshold` before its reset time, on a batch larger than
`max_batch_size = 1`. -/
theorem fetch_batch_circuit_open_witness :
    (_is_circuit_breaker_open ⟨1, 0, 5, 5, some 10, 300⟩ 0).1 = true ∧
    fetch_batch_quotes ⟨1, 0, 5, 5, some 10, 300⟩ [] (fun _ _ => .ok "Q")
        ["A", "B"] 0 =
      { result := ⟨[], [("A", circuitOpenMsg), ("B", circuitOpenMsg)]⟩,
        state := ⟨1, 0, 5, 5, some 10, 300⟩,
        attempts := [], callbackCalls := [] } :=
  ⟨by decide,
   fetch_batch_circuit_open ⟨1, 0, 5, 5, some 10, 300⟩ [] (fun _ _ => .ok "Q")
     ["A", "B"] 0 (by decide)⟩

/-- The callback fan-out applies every callback, in registration order,
to the same successful-quote map, whether or not a callback raises. -/
theorem runCallbacks_eq (callbacks : List Callback) (sq : AList String) :
    runCallbacks callbacks sq = callbacks.enum.map (fun p => (p.1, sq)) := by
  unfold runCallbacks
  refine List.map_congr_left ?_
  intro p _
  cases p.2 sq <;> rfl

/-- C7 (amended): whenever a batch ends with at least one successful
quote, every registered callback is invoked exactly once, in registration
order, with the full successful-quote map; a raising callback neither
propagates (the function still returns its `FetchOut`) nor prevents the
remaining callbacks from running.  (The original claim fails when no quote
succeeded: the code guards the fan-out with `if result.successful_quotes`
and invokes no callback at all, see the counterexample.) -/
theorem fetch_batch_callbacks (st : FetcherState) (callbacks : List Callback)
    (env : FetchEnv) (symbols : List String) (now : ℚ)
    (hne : (fetch_batch_quotes st callbacks env symbols now).result.successful_quotes ≠ []) :
    (fetch_batch_quotes st callbacks env symbols now).callbackCalls
      = callbacks.enum.map (fun p =>
          (p.1, (fetch_batch_quotes st callbacks env symbols now).result.successful_quotes)) := by
  by_cases hopen : (_is_circuit_breaker_open st now).1 = true
  · exfalso
    apply hne
    rw [fetch_batch_circuit_open st callbacks env symbols now hopen]
  · unfold fetch_batch_quotes at hne ⊢
    rw [if_neg hopen] at hne ⊢
    unfold fetchLoop at hne ⊢
    simp only at hne ⊢
    have hempty : (((if symbols.length > st.max_batch_size
        then symbols.take st.max_batch_size else symbols).foldl
          (symbolStep env (_is_circuit_breaker_open st now).2.max_retries)
          (⟨[], []⟩, (_is_circuit_breaker_open st now).2.circuit_breaker_failures,
            [])).1.successful_quotes).isEmpty = false := by
      rw [List.isEmpty_eq_false_iff_exists_mem]
      cases hq : ((if symbols.length > st.max_batch_size
          then symbols.take st.max_batch_size else symbols).foldl
            (symbolStep env (_is_circuit_breaker_open st now).2.max_retries)
            (⟨[], []⟩, (_is_circuit_breaker_open st now).2.circuit_breaker_failures,
              [])).1.successful_quotes with
      | nil => exact absurd hq hne
      | cons p l => exact ⟨p, List.mem_cons_self p l⟩
    rw [hempty]
    cases hcb : callbacks with
    | nil => rfl
    | cons c cs =>
      simp only [List.isEmpty_cons, Bool.false_or]
      rw [← hcb, runCallbacks_eq]
      rfl

/-- C7 counterexample: a batch in which every symbol fails invokes no
callback at all (the registered callback is never called with the empty
successful-quote map, contradicting the unconditional
invoked-exactly-once claim). -/
theorem fetch_batch_callbacks_skipped_on_empty :
    (fetch_batch_quotes ⟨20, 0, 0, 5, none, 300⟩ [fun _ => .ok ()]
        (fun _ _ => .noData) ["X"] 0).result.successful_quotes = [] ∧
    (fetch_batch_quotes ⟨20, 0, 0, 5, none, 300⟩ [fun _ => .ok ()]
        (fun _ _ => .noData) ["X"] 0).callbackCalls = [] := by
  constructor
  · rfl
  · rfl

/-- C7 witness: a successful batch with one raising callback and one
normal callback — both are invoked once, in order, with the full map. -/
theorem fetch_batch_callbacks_witness :
    (fetch_batch_quotes ⟨20, 0, 0, 5, none, 300⟩
        [fun _ => .error "boom", fun _ => .ok ()]
        (fun _ _ => .ok "Q") ["X"] 0).result.successful_quotes ≠ [] ∧
    (fetch_batch_quotes ⟨20, 0, 0, 5, none, 300⟩
        [fun _ => .error "boom", fun _ => .ok ()]
        (fun _ _ => .ok "Q") ["X"] 0).callbackCalls
      = [(0, [("X", "Q")]), (1, [("X", "Q")])] :=
  ⟨by intro h; exact List.noConfusion h,
   by
    rw [fetch_batch_callbacks ⟨20, 0, 0, 5, none, 300⟩
      [fun _ => .error "boom", fun _ => .ok ()]
      (fun _ _ => .ok "Q") ["X"] 0 (by intro h; exact List.noConfusion h)]
    rfl⟩

end BatchDataFetcher

/-- An entry of `aset m k v` is an untouched entry of `m` or the pair
`(k, v)` itself. -/
theorem mem_aset_eq (m : AList α) (k : String) (v : α) (p : String × α)
    (h : p ∈ aset m k v) : p ∈ m ∨ p = (k, v) := by
  unfold aset at h
  by_cases hk : ahasKey m k = true
  · rw [if_pos hk] at h
    obtain ⟨q, hq, hpq⟩ := List.mem_map.mp h
    by_cases hq1 : q.1 = k
    · right
      rw [← hpq]
      simp [hq1]
    · left
      rw [← hpq]
      simpa [hq1] using hq
  · rw [if_neg hk] at h
    rcases List.mem_append.mp h with h1 | h1
    · exact Or.inl h1
    · exact Or.inr (List.mem_singleton.mp h1)

namespace WebSocketManager

theorem sinsert_mem (s : SetL) (a x : String) :
    x ∈ sinsert s a ↔ x ∈ s ∨ x = a := by
  unfold sinsert
  by_cases h : a ∈ s
  · rw [if_pos h]
    constructor
    · exact Or.inl
    · rintro (hx | rfl)
      · exact hx
      · exact h
  · rw [if_neg h, List.mem_cons]
    tauto

theorem sinsert_ne_nil (s : SetL) (a : String) : sinsert s a ≠ [] := by
  unfold sinsert
  by_cases h : a ∈ s
  · rw [if_pos h]
    intro hc
    rw [hc] at h
    exact (List.not_mem_nil a) h
  · rw [if_neg h]
    exact List.cons_ne_nil a s

theorem sdiscard_mem (s : SetL) (c x : String) :
    x ∈ sdiscard s c ↔ x ∈ s ∧ x ≠ c := by
  unfold sdiscard
  rw [List.mem_filter]
  simp

theorem sdiscard_isEmpty (s : SetL) (c x : String)
    (h : (sdiscard s c).isEmpty = true) (hx : x ∈ s) : x = c := by
  by_contra hne
  have hmem : x ∈ sdiscard s c := (sdiscard_mem s c x).mpr ⟨hx, hne⟩
  rw [List.isEmpty_iff] at h
  rw [h] at hmem
  exact (List.not_mem_nil x) hmem

theorem foldl_sinsert_mem (L : List String) :
    ∀ (s : SetL) (x : String), x ∈ L.foldl sinsert s ↔ x ∈ s ∨ x ∈ L := by
  induction L with
  | nil =>
    intro s x
    simp
  | cons a L ih =>
    intro s x
    rw [List.foldl_cons, ih (sinsert s a) x, sinsert_mem, List.mem_cons]
    tauto

theorem curSubs_eq (st : WSState) (c : String) :
    curSubs st c = (aget? st.client_subscriptions c).getD [] := by
  unfold curSubs subs0
  by_cases h : ahasKey st.client_subscriptions c = true
  · rw [if_pos h]
  · rw [if_neg h, aget?_aset_self,
      aget?_eq_none_of_not_ahasKey _ _ (by simpa using h)]
    rfl

theorem aget?_subs0_ne (st : WSState) (c c' : String) (h : c ≠ c') :
    aget? (subs0 st c) c' = aget? st.client_subscriptions c' := by
  unfold subs0
  by_cases hk : ahasKey st.client_subscriptions c = true
  · rw [if_pos hk]
  · rw [if_neg hk, aget?_aset_ne _ _ _ _ h]

theorem subRevStep_mem (c : String) (rv : AList SetL) (s₀ s x : String) :
    x ∈ (aget? (subRevStep c rv s₀) s).getD [] ↔
      (x ∈ (aget? rv s).getD []) ∨ (x = c ∧ s = s₀) := by
  unfold subRevStep
  by_cases hs : s₀ = s
  · subst hs
    rw [aget?_aset_self]
    simp only [Option.getD_some]
    rw [sinsert_mem]
    tauto
  · rw [aget?_aset_ne _ _ _ _ hs]
    constructor
    · exact Or.inl
    · rintro (hx | ⟨_, hss⟩)
      · exact hx
      · exact absurd hss.symm hs

theorem subRevFold_mem (c : String) (L : List String) :
    ∀ (rv : AList SetL) (s x : String),
      x ∈ (aget? (L.foldl (subRevStep c) rv) s).getD [] ↔
        (x ∈ (aget? rv s).getD []) ∨ (x = c ∧ s ∈ L) := by
  induction L with
  | nil =>
    intro rv s x
    simp
  | cons a L ih =>
    intro rv s x
    rw [List.foldl_cons, ih (subRevStep c rv a) s x, subRevStep_mem, List.mem_cons]
    tauto

theorem subRevStep_nonempty (c : String) (rv : AList SetL) (s₀ : String)
    (h : ∀ p ∈ rv, p.2 ≠ []) : ∀ p ∈ subRevStep c rv s₀, p.2 ≠ [] := by
  intro p hp
  rcases mem_aset_eq _ _ _ p hp with h1 | h1
  · exact h p h1
  · rw [h1]
    exact sinsert_ne_nil _ c

theorem subRevFold_nonempty (c : String) (L : List String) :
    ∀ (rv : AList SetL), (∀ p ∈ rv, p.2 ≠ []) →
      ∀ p ∈ L.foldl (subRevStep c) rv, p.2 ≠ [] := by
  induction L with
  | nil =>
    intro rv h
    exact h
  | cons a L ih =>
    intro rv h
    rw [List.foldl_cons]
    exact ih _ (subRevStep_nonempty c rv a h)

theorem pruneRevStep_mem (c : String) (rv : AList SetL) (s₀ s x : String) :
    x ∈ (aget? (pruneRevStep c rv s₀) s).getD [] ↔
      (x ∈ (aget? rv s).getD []) ∧ ¬(x = c ∧ s = s₀) := by
  unfold pruneRevStep
  by_cases hk : ahasKey rv s₀ = true
  · rw [if_pos hk]
    by_cases he : (sdiscard ((aget? rv s₀).getD []) c).isEmpty = true
    · rw [if_pos he]
      by_cases hs : s₀ = s
      · subst hs
        rw [aget?_aerase_self]
        constructor
        · intro h
          exact absurd h (List.not_mem_nil x)
        · rintro ⟨hx, hnc⟩
          exact (hnc ⟨sdiscard_isEmpty _ _ _ he hx, by trivial⟩).elim
      · rw [aget?_aerase_ne _ _ _ hs]
        constructor
        · intro h
          exact ⟨h, fun hc => hs hc.2.symm⟩
        · exact And.left
    · rw [if_neg he]
      by_cases hs : s₀ = s
      · subst hs
        rw [aget?_aset_self]
        simp only [Option.getD_some]
        rw [sdiscard_mem]
        constructor
        · rintro ⟨hx, hne⟩
          exact ⟨hx, fun hc => hne hc.1⟩
        · rintro ⟨hx, hnc⟩
          exact ⟨hx, fun hxc => hnc ⟨hxc, by trivial⟩⟩
      · rw [aget?_aset_ne _ _ _ _ hs]
        constructor
        · intro h
          exact ⟨h, fun hc => hs hc.2.symm⟩
        · exact And.left
  · rw [if_neg hk]
    have hnone : aget? rv s₀ = none :=
      aget?_eq_none_of_not_ahasKey _ _ (by simpa using hk)
    by_cases hs : s₀ = s
    · subst hs
      simp [hnone]
    · constructor
      · intro h
        exact ⟨h, fun hc => hs hc.2.symm⟩
      · exact And.left

theorem pruneRevFold_mem (c : String) (L : List String) :
    ∀ (rv : AList SetL) (s x : String),
      x ∈ (aget? (L.foldl (pruneRevStep c) rv) s).getD [] ↔
        (x ∈ (aget? rv s).getD []) ∧ ¬(x = c ∧ s ∈ L) := by
  induction L with
  | nil =>
    intro rv s x
    simp
  | cons a L ih =>
    intro rv s x
    rw [List.foldl_cons, ih (pruneRevStep c rv a) s x, pruneRevStep_mem,
      List.mem_cons]
    tauto

theorem pruneRevStep_nonempty (c : String) (rv : AList SetL) (s₀ : String)
    (h : ∀ p ∈ rv, p.2 ≠ []) : ∀ p ∈ pruneRevStep c rv s₀, p.2 ≠ [] := by
  intro p hp
  unfold pruneRevStep at hp
  by_cases hk : ahasKey rv s₀ = true
  · rw [if_pos hk] at hp
    by_cases he : (sdiscard ((aget? rv s₀).getD []) c).isEmpty = true
    · rw [if_pos he] at hp
      exact h p (List.mem_of_mem_filter hp)
    · rw [if_neg he] at hp
      rcases mem_aset_eq _ _ _ p hp with h1 | h1
      · exact h p h1
      · rw [h1]
        intro hc
        apply he
        have hc' : sdiscard ((aget? rv s₀).getD []) c = [] := hc
        rw [hc']
        rfl
  · rw [if_neg hk] at hp
    exact h p hp

theorem pruneRevFold_nonempty (c : String) (L : List String) :
    ∀ (rv : AList SetL), (∀ p ∈ rv, p.2 ≠ []) →
      ∀ p ∈ L.foldl (pruneRevStep c) rv, p.2 ≠ [] := by
  induction L with
  | nil =>
    intro rv h
    exact h
  | cons a L ih =>
    intro rv h
    rw [List.foldl_cons]
    exact ih _ (pruneRevStep_nonempty c rv a h)

theorem unsubSubsStep_mem (c : String) (m : AList SetL) (a c' x : String) :
    x ∈ (aget? (aset m c (sdiscard ((aget? m c).getD []) a)) c').getD [] ↔
      (x ∈ (aget? m c').getD []) ∧ ¬(c' = c ∧ x = a) := by
  by_cases hc : c = c'
  · subst hc
    rw [aget?_aset_self]
    simp only [Option.getD_some]
    rw [sdiscard_mem]
    constructor
    · rintro ⟨hx, hne⟩
      exact ⟨hx, fun h => hne h.2⟩
    · rintro ⟨hx, hn⟩
      exact ⟨hx, fun h => hn ⟨by trivial, h⟩⟩
  · rw [aget?_aset_ne _ _ _ _ hc]
    constructor
    · intro h
      exact ⟨h, fun hh => hc hh.1.symm⟩
    · exact And.left

theorem unsubSubsFold_mem (c : String) (L : List String) :
    ∀ (m : AList SetL) (c' x : String),
      x ∈ (aget? (L.foldl
          (fun m s => aset m c (sdiscard ((aget? m c).getD []) s)) m) c').getD [] ↔
        (x ∈ (aget? m c').getD []) ∧ ¬(c' = c ∧ x ∈ L) := by
  induction L with
  | nil =>
    intro m c' x
    simp
  | cons a L ih =>
    intro m c' x
    rw [List.foldl_cons, ih _ c' x, unsubSubsStep_mem, List.mem_cons]
    tauto

/-- The per-symbol unsubscribe loop acts independently on the two maps. -/
theorem unsubFold_eq (c : String) (L : List String) :
    ∀ st : WSState,
      L.foldl (unsubStep c) st =
        ⟨st.connected_clients,
         L.foldl (fun m s => aset m c (sdiscard ((aget? m c).getD []) s))
           st.client_subscriptions,
         L.foldl (pruneRevStep c) st.symbol_subscribers⟩ := by
  induction L with
  | nil =>
    intro st
    rfl
  | cons a L ih =>
    intro st
    rw [List.foldl_cons, ih (unsubStep c st a)]
    rfl

end WebSocketManager

namespace WebSocketManager

/-- `handle_client_subscription` preserves the registry invariant. -/
theorem subscribe_preserves (st : WSState) (c : String) (symbols : List String)
    (h : SubsInv st) : SubsInv (handle_client_subscription st c symbols) := by
  obtain ⟨h1, h2⟩ := h
  unfold handle_client_subscription
  by_cases hc : c ∈ st.connected_clients
  · rw [if_pos hc]
    unfold SubsInv
    constructor
    · intro c' s
      dsimp only
      rw [subRevFold_mem c (newSymbols st c symbols) st.symbol_subscribers s c']
      have hnew : ∀ s : String, s ∈ newSymbols st c symbols ↔
          s ∈ symbols ∧ ¬ s ∈ (aget? st.client_subscriptions c).getD [] := by
        intro s
        unfold newSymbols
        rw [List.mem_filter, curSubs_eq]
        simp
      by_cases hcc : c = c'
      · subst hcc
        rw [aget?_aset_self]
        simp only [Option.getD_some]
        rw [foldl_sinsert_mem, curSubs_eq]
        have e1 := h1 c s
        have e2 := hnew s
        tauto
      · rw [aget?_aset_ne _ _ _ _ hcc, aget?_subs0_ne st c c' hcc]
        have e1 := h1 c' s
        have e3 : ¬ (c' = c) := fun hh => hcc hh.symm
        tauto
    · intro p hp
      exact subRevFold_nonempty c (newSymbols st c symbols)
        st.symbol_subscribers h2 p hp
  · rw [if_neg hc]
    exact ⟨h1, h2⟩

/-- `_unsubscribe_client_from_symbols` preserves the registry invariant. -/
theorem unsubscribe_preserves (st : WSState) (c : String) (symbols : List String)
    (h : SubsInv st) : SubsInv (_unsubscribe_client_from_symbols st c symbols) := by
  obtain ⟨h1, h2⟩ := h
  unfold _unsubscribe_client_from_symbols
  by_cases hk : ahasKey st.client_subscriptions c = true
  · rw [if_pos hk, unsubFold_eq]
    unfold SubsInv
    constructor
    · intro c' s
      dsimp only
      rw [unsubSubsFold_mem c symbols st.client_subscriptions c' s,
        pruneRevFold_mem c symbols st.symbol_subscribers s c']
      have e1 := h1 c' s
      tauto
    · intro p hp
      exact pruneRevFold_nonempty c symbols st.symbol_subscribers h2 p hp
  · rw [if_neg hk]
    exact ⟨h1, h2⟩

/-- `_cleanup_client` preserves the registry invariant. -/
theorem cleanup_preserves (st : WSState) (c : String)
    (h : SubsInv st) : SubsInv (_cleanup_client st c) := by
  obtain ⟨h1, h2⟩ := h
  unfold _cleanup_client
  by_cases hk : ahasKey st.client_subscriptions c = true
  · rw [if_pos hk]
    unfold SubsInv
    constructor
    · intro c' s
      dsimp only
      rw [pruneRevFold_mem c ((aget? st.client_subscriptions c).getD [])
        st.symbol_subscribers s c']
      by_cases hcc : c = c'
      · subst hcc
        rw [aget?_aerase_self]
        have e1 := h1 c s
        constructor
        · intro hmem
          exact absurd hmem (List.not_mem_nil s)
        · rintro ⟨hrev, hn⟩
          exact (hn ⟨by trivial, e1.mpr hrev⟩).elim
      · rw [aget?_aerase_ne _ _ _ hcc]
        have e1 := h1 c' s
        have e3 : ¬ (c' = c) := fun hh => hcc hh.symm
        tauto
    · intro p hp
      exact pruneRevFold_nonempty c _ st.symbol_subscribers h2 p hp
  · rw [if_neg hk]
    exact ⟨h1, h2⟩

/-- The executable invariant check implies the invariant. -/
theorem subsInv_of_check (st : WSState) (h : checkSubsInv st = true) :
    SubsInv st := by
  unfold checkSubsInv at h
  rw [Bool.and_eq_true] at h
  obtain ⟨ha, hb⟩ := h
  rw [List.all_eq_true] at ha hb
  constructor
  · intro c s
    constructor
    · intro hmem
      cases hq : aget? st.client_subscriptions c with
      | none =>
        rw [hq] at hmem
        exact absurd hmem (List.not_mem_nil s)
      | some ss =>
        rw [hq] at hmem
        simp only [Option.getD_some] at hmem
        unfold aget? at hq
        obtain ⟨q, hfind, hq2⟩ := Option.map_eq_some'.mp hq
        have hqmem : q ∈ st.client_subscriptions := List.mem_of_find?_eq_some hfind
        have hkey : q.1 = c := by
          have := List.find?_some hfind
          simpa using this
        have := ha q hqmem
        rw [List.all_eq_true] at this
        have hdec := this s (by rw [hq2]; exact hmem)
        rw [hkey] at hdec
        exact of_decide_eq_true hdec
    · intro hmem
      cases hq : aget? st.symbol_subscribers s with
      | none =>
        rw [hq] at hmem
        exact absurd hmem (List.not_mem_nil c)
      | some cs =>
        rw [hq] at hmem
        simp only [Option.getD_some] at hmem
        unfold aget? at hq
        obtain ⟨q, hfind, hq2⟩ := Option.map_eq_some'.mp hq
        have hqmem : q ∈ st.symbol_subscribers := List.mem_of_find?_eq_some hfind
        have hkey : q.1 = s := by
          have := List.find?_some hfind
          simpa using this
        have := hb q hqmem
        rw [Bool.and_eq_true] at this
        rw [List.all_eq_true] at this
        have hdec := this.2 c (by rw [hq2]; exact hmem)
        rw [hkey] at hdec
        exact of_decide_eq_true hdec
  · intro p hp
    have := hb p hp
    rw [Bool.and_eq_true] at this
    intro hc
    have h1 := this.1
    rw [hc] at h1
    simp at h1

/-- C6: from any state satisfying the bidirectional subscription
invariant (and with no empty subscriber entry), every finite interleaving
of `handle_client_subscription`, `_unsubscribe_client_from_symbols` and
`_cleanup_client` preserves it: a symbol is in a client's subscription set
iff the client is in the symbol's subscriber set, and no empty-set symbol
entry remains. -/
theorem registry_invariant_preserved (st : WSState) (ops : List WSOp)
    (h : SubsInv st) : SubsInv (applyOps st ops) := by
  induction ops generalizing st with
  | nil => exact h
  | cons op ops ih =>
    unfold applyOps at *
    rw [List.foldl_cons]
    apply ih
    cases op with
    | subscribe c symbols => exact subscribe_preserves st c symbols h
    | unsubscribe c symbols => exact unsubscribe_preserves st c symbols h
    | disconnect c => exact cleanup_preserves st c h

/-- C6 witness: the invariant theorem applied to a concrete interleaving
of subscribe, partial unsubscribe, a second client, and a disconnect. -/
theorem registry_invariant_preserved_witness :
    checkSubsInv ⟨["c1", "c2"], [], []⟩ = true ∧
    SubsInv (applyOps ⟨["c1", "c2"], [], []⟩
      [WSOp.subscribe "c1" ["R", "S"], WSOp.subscribe "c2" ["R"],
       WSOp.unsubscribe "c1" ["S"], WSOp.disconnect "c2"]) :=
  ⟨by decide,
   registry_invariant_preserved ⟨["c1", "c2"], [], []⟩
     [WSOp.subscribe "c1" ["R", "S"], WSOp.subscribe "c2" ["R"],
      WSOp.unsubscribe "c1" ["S"], WSOp.disconnect "c2"]
     (subsInv_of_check ⟨["c1", "c2"], [], []⟩ (by decide))⟩

end WebSocketManager

namespace OptimizedWebSocketService

open CompressionService

/-- C8 (amended): per dispatched update, `_send_update_to_client` always
resets the delta baseline for the symbol to the new data, chooses the
delta encoding exactly when the client's negotiated capabilities declare
delta support and no full update is forced — the existence of a prior
baseline is not consulted — and otherwise sends a full update; the encoded
update is enqueued to the client's pending batch iff the client declares
batch support, and sent immediately otherwise. -/
theorem send_update_spec (maxB : ℕ) (st : OWSState) (c symbol : String)
    (Q : Dict) (force : Bool) (now : String) :
    ((_send_update_to_client maxB st c symbol Q force now).1.prev_cache
      = aset st.prev_cache symbol Q) ∧
    (((capsFor st.client_capabilities c).supports_delta_updates && !force) = true →
      DeliveredAs maxB st c symbol Q force now
        (create_delta_update st.prev_cache symbol Q now).1) ∧
    (((capsFor st.client_capabilities c).supports_delta_updates && !force) = false →
      DeliveredAs maxB st c symbol Q force now
        (create_full_update st.prev_cache symbol Q now).1) := by
  refine ⟨?_, ?_, ?_⟩
  · cases hd : ((capsFor st.client_capabilities c).supports_delta_updates && !force) with
    | true =>
      cases hb : (capsFor st.client_capabilities c).supports_batch_updates with
      | true =>
        simp only [_send_update_to_client, hd, hb, if_true]
        rw [create_delta_update_snd]
      | false =>
        simp only [_send_update_to_client, hd, hb, if_true, Bool.false_eq_true,
          if_false]
        rw [create_delta_update_snd]
    | false =>
      cases hb : (capsFor st.client_capabilities c).supports_batch_updates with
      | true =>
        simp only [_send_update_to_client, hd, hb, if_true, Bool.false_eq_true,
          if_false]
        rfl
      | false =>
        simp only [_send_update_to_client, hd, hb, Bool.false_eq_true, if_false]
        rfl
  · intro hd
    constructor
    · intro hb
      simp only [_send_update_to_client, hd, hb, if_true, Bool.false_eq_true,
        if_false]
      constructor <;> trivial
    · intro hb
      constructor
      · intro hlen
        simp only [_send_update_to_client, hd, hb, if_true, _add_to_batch,
          if_pos hlen]
        constructor <;> first | trivial | exact aget?_aset_self _ _ _
      · intro hlen
        simp only [_send_update_to_client, hd, hb, if_true, _add_to_batch,
          if_neg (by omega : ¬ ((aget? st.pending_batches c).getD [] ++
            [(create_delta_update st.prev_cache symbol Q now).1]).length ≥ maxB)]
        constructor <;> first | trivial | exact aget?_aset_self _ _ _
  · intro hd
    constructor
    · intro hb
      simp only [_send_update_to_client, hd, hb, Bool.false_eq_true, if_false]
      constructor <;> trivial
    · intro hb
      constructor
      · intro hlen
        simp only [_send_update_to_client, hd, hb, if_true, Bool.false_eq_true,
          if_false, _add_to_batch, if_pos hlen]
        constructor <;> first | trivial | exact aget?_aset_self _ _ _
      · intro hlen
        simp only [_send_update_to_client, hd, hb, if_true, Bool.false_eq_true,
          if_false, _add_to_batch,
          if_neg (by omega : ¬ ((aget? st.pending_batches c).getD [] ++
            [(create_full_update st.prev_cache symbol Q now).1]).length ≥ maxB)]
        constructor <;> first | trivial | exact aget?_aset_self _ _ _

/-- C8 counterexample: a client declaring delta support receives a
delta-typed update even though no baseline exists for the symbol — the
claim's "a full update is sent when no baseline exists" does not hold. -/
theorem send_update_delta_without_baseline :
    aget? (([] : PrevCache)) "R" = none ∧
    (_send_update_to_client 10
        ⟨[], [("c1", ⟨false, true, false⟩)], []⟩ "c1" "R"
        [("current_price", Val.vStr "100"), ("timestamp", Val.vStr "t1")]
        false "n").2
      = [.single (.delta "R" (.vStr "t1") [("current_price", Val.vStr "100")])] := by
  decide

/-- C8 witness: two clients subscribed to the same symbol, one declaring
delta+batch support, one declaring none — the dispatch theorem applied to
the first yields a queued (not sent) delta update. -/
theorem send_update_spec_witness :
    (_send_update_to_client 10
        ⟨[], [("c1", ⟨false, true, true⟩), ("c2", ⟨false, false, false⟩)], []⟩
        "c1" "R" [("current_price", Val.vStr "100"), ("timestamp", Val.vStr "t1")]
        false "n").2 = [] ∧
    aget? (_send_update_to_client 10
        ⟨[], [("c1", ⟨false, true, true⟩), ("c2", ⟨false, false, false⟩)], []⟩
        "c1" "R" [("current_price", Val.vStr "100"), ("timestamp", Val.vStr "t1")]
        false "n").1.pending_batches "c1"
      = some [.delta "R" (.vStr "t1") [("current_price", Val.vStr "100")]] := by
  have h := (send_update_spec 10
    ⟨[], [("c1", ⟨false, true, true⟩), ("c2", ⟨false, false, false⟩)], []⟩
    "c1" "R" [("current_price", Val.vStr "100"), ("timestamp", Val.vStr "t1")]
    false "n").2.1 (by decide)
  have h2 := (h.2 (by decide)).2 (by decide)
  constructor
  · rw [h2.1]
  · rw [h2.2]
    decide

end OptimizedWebSocketService

namespace CacheIntegrationService

/-- C9: on a cache miss with `fetch_if_missing`, when the single-symbol
batch fetch succeeds, `get_stock_data` returns the fresh quote whether or
not the cache write-through (`refresh_stock_data`) succeeds: the store
failure loses only the cache side effect and never changes the returned
result. -/
theorem get_stock_data_fresh_despite_cache_failure
    (st : BatchDataFetcher.FetcherState)
    (callbacks : List BatchDataFetcher.Callback)
    (env : BatchDataFetcher.FetchEnv) (symbol : String) (now : ℚ) (q : String)
    (hfetch : aget? (BatchDataFetcher.fetch_batch_quotes st callbacks env
        [symbol] now).result.successful_quotes symbol = some q) :
    (∀ refreshOk, get_stock_data none true st callbacks env symbol now refreshOk
      = some q) ∧
    get_stock_data none true st callbacks env symbol now false
      = get_stock_data none true st callbacks env symbol now true := by
  constructor
  · intro refreshOk
    unfold get_stock_data
    rw [hfetch]
    rfl
  · unfold get_stock_data
    rw [hfetch]

/-- C9 witness: the theorem applied to a successful single-symbol fetch
with the cache store failing (`refreshOk = false`). -/
theorem get_stock_data_fresh_witness :
    aget? (BatchDataFetcher.fetch_batch_quotes ⟨20, 0, 0, 5, none, 300⟩ []
        (fun _ _ => .ok "Q") ["X"] 0).result.successful_quotes "X" = some "Q" ∧
    get_stock_data none true ⟨20, 0, 0, 5, none, 300⟩ []
        (fun _ _ => .ok "Q") "X" 0 false = some "Q" :=
  ⟨by decide,
   (get_stock_data_fresh_despite_cache_failure ⟨20, 0, 0, 5, none, 300⟩ []
      (fun _ _ => .ok "Q") "X" 0 "Q" (by decide)).1 false⟩

end CacheIntegrationService

end BSE
